import Mathlib

/-!
Verification development for findFrankNumber.c, a filter deciding whether a
cubic 3-edge-connected graph has Frank number 2.  The C sources are embedded
shallowly: bitsets become Finset over the naturals, the int arrays indexed by
vertices become functions, C ints carrying the sentinel -1 become integers,
and the mutating recursions become state-passing recursions.  Recursions whose
termination the C code gets from data invariants are given an explicit fuel
parameter; every use instantiates the fuel generously enough that the
behaviour coincides with the unbounded C recursion.
-/

set_option maxHeartbeats 4000000

namespace FrankNumber

/-- Modelled from the spec: the build-time bound N_max of bitset.h
(bitset64Vertices.h is not under src; we fix the 64-bit build). -/
def MAXVERTICES : ℕ := 64

/-- Modelled from the spec: complement(EMPTY, n) of the vertex-bitset component
(bitset64Vertices.h is not under src), the set of all indices below n. -/
def fullSet (n : ℕ) : Finset ℕ := Finset.range n

/-- Modelled from the spec: the next-after operation of the bitset component:
smallest element of s strictly greater than i, or -1 if there is none. -/
def next (s : Finset ℕ) (i : ℤ) : ℤ :=
  let t := s.filter fun x : ℕ => i < (x : ℤ)
  if h : t.Nonempty then ((t.min' h : ℕ) : ℤ) else -1

/-- Modelled from the spec: ascending iteration order (forEach) of the bitset
component.  Insertion sort is used so that the definition reduces by
computation alone. -/
def sortedList (s : Finset ℕ) : List ℕ :=
  Quot.liftOn s.val (fun l => List.insertionSort (· ≤ ·) l) fun l₁ l₂ h =>
    List.eq_of_perm_of_sorted
      (((List.perm_insertionSort _ l₁).trans h).trans (List.perm_insertionSort _ l₂).symm)
      (List.sorted_insertionSort _ l₁) (List.sorted_insertionSort _ l₂)

/-- Digraph structure, struct diGraph of findFrankNumber.c: per-vertex outgoing
and incoming neighbour bitsets plus an arc counter. -/
structure DiGraph where
  numberOfVertices : ℕ
  adjacencyList : ℕ → Finset ℕ
  reverseAdjacencyList : ℕ → Finset ℕ
  numberOfArcs : ℤ

/-- Macro emptyGraph of findFrankNumber.c. -/
def emptyGraph (n : ℕ) : DiGraph := ⟨n, fun _ => ∅, fun _ => ∅, 0⟩

/-- Macro addArc of findFrankNumber.c. -/
def addArc (g : DiGraph) (i j : ℕ) : DiGraph :=
  ⟨g.numberOfVertices,
   fun v => if v = i then insert j (g.adjacencyList i) else g.adjacencyList v,
   fun v => if v = j then insert i (g.reverseAdjacencyList j) else g.reverseAdjacencyList v,
   g.numberOfArcs + 1⟩

/-- Macro removeArc of findFrankNumber.c. -/
def removeArc (g : DiGraph) (i j : ℕ) : DiGraph :=
  ⟨g.numberOfVertices,
   fun v => if v = i then (g.adjacencyList i).erase j else g.adjacencyList v,
   fun v => if v = j then (g.reverseAdjacencyList j).erase i else g.reverseAdjacencyList v,
   g.numberOfArcs - 1⟩

/-- The reversal of a digraph, obtained by reversing every arc.  This is the
orientation-with-opposite-arcs the comments of hasComplementaryOrientation and
generateAllOrientations refer to. -/
def reverseDiGraph (g : DiGraph) : DiGraph :=
  ⟨g.numberOfVertices, g.reverseAdjacencyList, g.adjacencyList, g.numberOfArcs⟩

/-- Function visit of findFrankNumber.c (first Kosaraju pass).  The unvisited
set and the finish-order list L are threaded as state; the C recursion depth
is bounded by the number of vertices, so fuel n+1 reproduces it exactly. -/
def visit (g : DiGraph) : ℕ → ℕ → Finset ℕ × List ℕ → Finset ℕ × List ℕ
  | 0, _, st => st
  | fuel + 1, v, st =>
    if v ∉ st.1 then st
    else
      let st2 := (sortedList (g.adjacencyList v)).foldl
        (fun st3 w => visit g fuel w st3) (st.1.erase v, st.2)
      (st2.1, st2.2 ++ [v])

/-- Function assign of findFrankNumber.c (second Kosaraju pass). -/
def assign (g : DiGraph) : ℕ → ℕ → Finset ℕ → Finset ℕ
  | 0, _, s => s
  | fuel + 1, v, s =>
    if v ∈ s then s
    else (sortedList (g.reverseAdjacencyList v)).foldl
      (fun s2 w => assign g fuel w s2) (insert v s)

/-- Function isStronglyConnected of findFrankNumber.c: Kosaraju-style test. -/
def isStronglyConnected (g : DiGraph) : Bool :=
  let n := g.numberOfVertices
  let st := (List.range n).foldl (fun st i => visit g (n + 1) i st) (fullSet n, [])
  let lastV := st.2.getLastD 0
  (assign g (n + 1) lastV ∅).card = n

/-- Function numberEdges of findFrankNumber.c: assign every edge of the
undirected graph an index, scanning pairs (i, nbr) with i < nbr in the
forEachAfterIndex order; the matrix becomes a symmetric function. -/
def numberEdges (adj : ℕ → Finset ℕ) (n : ℕ) : ℕ → ℕ → ℕ :=
  ((List.range n).foldl
    (fun (st : ℕ × (ℕ → ℕ → ℕ)) i =>
      (sortedList ((adj i).filter fun w => i < w)).foldl
        (fun (st2 : ℕ × (ℕ → ℕ → ℕ)) nbr =>
          (st2.1 + 1,
           fun a b => if (a = i ∧ b = nbr) ∨ (a = nbr ∧ b = i) then st2.1 else st2.2 a b))
        st)
    ((0 : ℕ), fun _ _ => 0)).2

/-- Function containsDirectedPathBetween of findFrankNumber.c.  The unvisited
bitset is passed by value in C, so sibling recursive calls do not share it;
the state-passing here is literal.  The C recursion depth is bounded by the
size of the unvisited set, so fuel card+1 reproduces it exactly. -/
def containsDirectedPathBetween (adj : ℕ → Finset ℕ) :
    ℕ → Finset ℕ → ℕ → ℕ → Bool
  | 0, _, _, _ => false
  | fuel + 1, unvisited, i, e =>
    if e ∈ adj i then true
    else (sortedList (adj i ∩ unvisited.erase i)).any fun x =>
      containsDirectedPathBetween adj fuel (unvisited.erase i) x e

/-- Function getDeletableEdges of findFrankNumber.c: an arc (i, nbr) is
deletable when after removing it a directed path from i to nbr remains; the
result collects the edge numbers of the deletable arcs.  The removeArc and
addArc surrounding the path test in C restore the digraph, so the pure
embedding tests the path on the digraph with the arc removed. -/
def getDeletableEdges (g : DiGraph) (n : ℕ) (idx : ℕ → ℕ → ℕ) : Finset ℕ :=
  (Finset.range n).biUnion fun i =>
    ((g.adjacencyList i).filter fun nbr =>
        containsDirectedPathBetween (removeArc g i nbr).adjacencyList
          (n + 1) (fullSet n) i nbr).image
      fun nbr => idx i nbr

/-- Outcome of the scanning loop of getIntermediateFrankNumber: an early
return 0 (new set dominated), an early return 2 (complementary pair found),
a fall-through after storing the new set in the first originally empty slot,
or a fall-through with no empty slot seen. -/
inductive GifnOut where
  | early0 : GifnOut
  | early2 : GifnOut
  | stored : GifnOut
  | fellthrough : GifnOut
deriving DecidableEq

/-- Scanning loop of getIntermediateFrankNumber of findFrankNumber.c over the
stored bitsets.  T is the deletable-edge set of the new orientation, all the
set of all edge numbers; emptySeen records whether an originally empty slot
was already passed (the C insertPosition is the first such slot).  A stored
set that is a superset of T is tombstoned to the empty set, and the
complementarity test afterwards reads the possibly tombstoned slot, exactly
as the C code reads array[i] after overwriting it. -/
def gifnGo (T all : Finset ℕ) : Bool → List (Finset ℕ) → GifnOut × List (Finset ℕ)
  | _, [] => (GifnOut.fellthrough, [])
  | emptySeen, A :: rest =>
    if A ≠ ∅ then
      if T ⊆ A then (GifnOut.early0, A :: rest)
      else
        if T ∪ (if A ⊆ T then (∅ : Finset ℕ) else A) = all then
          (GifnOut.early2, (if A ⊆ T then (∅ : Finset ℕ) else A) :: rest)
        else
          let r := gifnGo T all emptySeen rest
          (r.1, (if A ⊆ T then (∅ : Finset ℕ) else A) :: r.2)
    else
      let r := gifnGo T all true rest
      if emptySeen = false ∧ r.1 = GifnOut.fellthrough then (GifnOut.stored, T :: r.2)
      else (r.1, (∅ : Finset ℕ) :: r.2)

/-- Function getIntermediateFrankNumber of findFrankNumber.c (the brute-force
pool): returns the result (0 or 2) and the updated pool; an early 2 appends
the new set at the end, a fall-through with no empty slot appends it as well,
otherwise it is written into the first empty slot during the scan. -/
def getIntermediateFrankNumber (n : ℕ) (pool : List (Finset ℕ))
    (deletableEdges : Finset ℕ) : ℤ × List (Finset ℕ) :=
  match gifnGo deletableEdges (fullSet (3 * n / 2)) false pool with
  | (GifnOut.early0, l) => (0, l)
  | (GifnOut.early2, l) => (2, l ++ [deletableEdges])
  | (GifnOut.stored, l) => (0, l)
  | (GifnOut.fellthrough, l) => (0, l ++ [deletableEdges])

/-- Function otherEdgesAreNonDeletable of findFrankNumber.c: both other edges
incident to x are outside the deletable set. -/
def otherEdgesAreNonDeletable (adj : ℕ → Finset ℕ) (x y : ℕ) (S : Finset ℕ)
    (idx : ℕ → ℕ → ℕ) : Bool :=
  decide (∀ e ∈ (adj x).erase y, idx x e ∉ S)

/-- Function canAddNewArc of findFrankNumber.c.  The orientation is threaded
through an Option: none models the C return value false (the callers restore
the orientation from a copy on failure, so the partially mutated state is
never observed).  The C recursion always strictly increases the number of
arcs before recursing, so generous fuel reproduces it. -/
def canAddNewArc (adj : ℕ → Finset ℕ) (S : Finset ℕ) (idx : ℕ → ℕ → ℕ) :
    ℕ → DiGraph → ℕ → ℕ → Option DiGraph
  | 0, _, _, _ => none
  | fuel + 1, g, x, y =>
    -- lines 488 to 496: when x reached out-degree 2 with in-degree 0, force
    -- the remaining incident edge of x as incoming
    let forceOut2In : DiGraph → Option DiGraph := fun gc =>
      if (gc.adjacencyList x).card = 2 ∧ (gc.reverseAdjacencyList x).card < 1 then
        canAddNewArc adj S idx fuel gc
          (next ((adj x) \ gc.adjacencyList x) (-1)).toNat x
      else some gc
    -- lines 499 to 507: when y reached in-degree 2 with out-degree 0, force
    -- the remaining incident edge of y as outgoing
    let forceIn2Out : DiGraph → Option DiGraph := fun gc =>
      if (gc.adjacencyList y).card = 0 ∧ (gc.reverseAdjacencyList y).card = 2 then
        canAddNewArc adj S idx fuel gc y
          (next ((adj y) \ gc.reverseAdjacencyList y) (-1)).toNat
      else some gc
    if y ∈ g.adjacencyList x then some g
    else if x ∈ g.adjacencyList y then none
    else if 2 ≤ (g.adjacencyList x).card then none
    else if 2 ≤ (g.reverseAdjacencyList y).card then none
    else if idx x y ∈ S then
      if ∃ e ∈ (adj x).erase y, idx x e ∈ S ∧ e ∈ g.adjacencyList x then none
      else if ∃ e ∈ (adj y).erase x, idx y e ∈ S ∧ e ∈ g.reverseAdjacencyList y then none
      else do
        let stepOtherX : DiGraph → Option DiGraph := fun gc =>
          if otherEdgesAreNonDeletable adj x y S idx then
            (sortedList ((adj x).erase y)).foldlM
              (fun gc2 e => canAddNewArc adj S idx fuel gc2 e x) gc
          else some gc
        let stepOtherY : DiGraph → Option DiGraph := fun gc =>
          if otherEdgesAreNonDeletable adj y x S idx then
            (sortedList ((adj y).erase x)).foldlM
              (fun gc2 e => canAddNewArc adj S idx fuel gc2 y e) gc
          else some gc
        let g1 := addArc g x y
        let g2 ← forceOut2In g1
        let g3 ← forceIn2Out g2
        let g4 ← (sortedList ((adj x).erase y)).foldlM
          (fun gc e => if idx x e ∈ S then canAddNewArc adj S idx fuel gc e x else some gc) g3
        let g5 ← (sortedList ((adj y).erase x)).foldlM
          (fun gc e => if idx y e ∈ S then canAddNewArc adj S idx fuel gc y e else some gc) g4
        let g6 ← stepOtherX g5
        let g7 ← stepOtherY g6
        some g7
    else
      if 2 ≤ (g.adjacencyList x).card ∨ 2 ≤ (g.reverseAdjacencyList x).card then none
      else if 2 ≤ (g.adjacencyList y).card ∨ 2 ≤ (g.reverseAdjacencyList y).card then none
      else if (match ((sortedList ((adj x).erase y)).find? fun e => !decide (idx x e ∈ S)) with
               | some _ => decide (y ∈ g.reverseAdjacencyList x)
               | none => false) then none
      else if (match ((sortedList ((adj y).erase x)).find? fun e => !decide (idx y e ∈ S)) with
               | some _ => decide (x ∈ g.adjacencyList y)
               | none => false) then none
      else do
        let forceYOut : DiGraph → Option DiGraph := fun gc =>
          if (gc.adjacencyList y).card = 0 ∧ (gc.reverseAdjacencyList y).card = 2 then
            canAddNewArc adj S idx fuel gc y
              (next ((adj y) \ gc.adjacencyList y) (-1)).toNat
          else some gc
        let forceYIn : DiGraph → Option DiGraph := fun gc =>
          if (gc.adjacencyList y).card = 1 ∧ (gc.reverseAdjacencyList y).card = 1 then
            canAddNewArc adj S idx fuel gc
              (next ((adj y) \ (gc.adjacencyList y ∪ gc.reverseAdjacencyList y)) (-1)).toNat y
          else some gc
        let breakX : DiGraph → Option DiGraph := fun gc =>
          match (sortedList ((adj x).erase y)).find? fun e => !decide (idx x e ∈ S) with
          | some e => canAddNewArc adj S idx fuel gc x e
          | none => some gc
        let breakY : DiGraph → Option DiGraph := fun gc =>
          match (sortedList ((adj y).erase x)).find? fun e => !decide (idx y e ∈ S) with
          | some e => canAddNewArc adj S idx fuel gc e y
          | none => some gc
        let g1 := addArc g x y
        let g2 ← forceOut2In g1
        let g3 ← forceIn2Out g2
        let g4 ← forceYOut g3
        let g5 ← forceYIn g4
        let g6 ← breakX g5
        let g7 ← breakY g6
        some g7

/-- Function canCompleteCompOrientation of findFrankNumber.c: loop over all
edges and try orienting them in both directions.  Endpoints carry the C
sentinel -1 and are integers.  The first component of the result is the C
return value; the second records whether the diagnostic message at the
arc-count check of the leaf (line 636, Something went wrong) was emitted,
which in C only prints to stderr and does not stop execution.  afuel is the
fuel handed to canAddNewArc; the save and restore of the orientation around
each attempt in C becomes reuse of the unmodified value g. -/
def canCompleteCompOrientation (adj : ℕ → Finset ℕ) (n : ℕ) (S : Finset ℕ)
    (idx : ℕ → ℕ → ℕ) (afuel : ℕ) : ℕ → DiGraph → ℤ → ℤ → Bool × Bool
  | 0, _, _, _ => (false, false)
  | fuel + 1, g, e1, e2 =>
    if e2 = -1 ∧ e1 < (n : ℤ) - 1 then
      canCompleteCompOrientation adj n S idx afuel fuel g (e1 + 1)
        (next (adj (e1 + 1).toNat) (e1 + 1))
    else if e2 = -1 ∧ e1 = (n : ℤ) - 1 then
      let warned := decide (g.numberOfArcs ≠ 3 * (n : ℤ) / 2)
      let compDel := getDeletableEdges g n idx
      (decide (S ∪ compDel = fullSet (3 * n / 2)), warned)
    else if e2.toNat ∈ g.adjacencyList e1.toNat ∨ e1.toNat ∈ g.adjacencyList e2.toNat then
      canCompleteCompOrientation adj n S idx afuel fuel g e1 (next (adj e1.toNat) e2)
    else
      let tryFirst :=
        match canAddNewArc adj S idx afuel g e1.toNat e2.toNat with
        | some g1 => canCompleteCompOrientation adj n S idx afuel fuel g1 e1
            (next (adj e1.toNat) e2)
        | none => (false, false)
      if tryFirst.1 then tryFirst
      else
        let trySecond :=
          match canAddNewArc adj S idx afuel g e2.toNat e1.toNat with
          | some g2 => canCompleteCompOrientation adj n S idx afuel fuel g2 e1
              (next (adj e1.toNat) e2)
          | none => (false, false)
        (trySecond.1, tryFirst.2 || trySecond.2)

/-- Function hasComplementaryOrientation of findFrankNumber.c: fix the first
arc from vertex 0 to its smallest neighbour (the orientation with opposite
arcs has the same deletable edges), then complete by backtracking. -/
def hasComplementaryOrientation (adj : ℕ → Finset ℕ) (n : ℕ) (S : Finset ℕ)
    (idx : ℕ → ℕ → ℕ) (afuel cfuel : ℕ) : Bool :=
  match canAddNewArc adj S idx afuel (emptyGraph n) 0 (next (adj 0) (-1)).toNat with
  | none => false
  | some g1 =>
      (canCompleteCompOrientation adj n S idx afuel cfuel g1 0 (next (adj 0) (-1))).1

/-- The subset of struct options of findFrankNumber.c that influences the
values computed (the print, verbose and array-size fields only affect
diagnostics and allocation). -/
structure Options where
  bruteForceFlag : Bool
  complementFlag : Bool
  doublecheckFlag : Bool
  exhaustiveCheckFlag : Bool
  oddCyclesHeuristicFlag : Bool
  singleGraphFlag : Bool
  modulo : ℤ
  remainder : ℤ

/-- Result of generateAllOrientations: the returned int, the counter
totalOrientationsGenerated, the brute-force pool, and a ghost trace recording,
for every complete orientation reaching the leaf at line 759, the value of
totalOrientationsGenerated it receives there together with the orientation.
The trace is instrumentation: it adds an observation at the single program
point where the counter is incremented and changes no computed value. -/
structure GenResult where
  frankNumber : ℤ
  totalOrientationsGenerated : ℕ
  pool : List (Finset ℕ)
  leaves : List (ℕ × DiGraph)

/-- Function generateAllOrientations of findFrankNumber.c: enumerate
orientations of the graph, and at each complete orientation increment the
global counter, apply the single-graph res/mod filter, test strong
connectivity, compute the deletable edges, apply the local necessary
condition (a vertex with three non-deletable incident edges), and hand the
candidate to hasComplementaryOrientation or to the brute-force pool.  The
counter and pool are threaded; the degree prune tests the just-added arc
exactly as lines 817 to 818 and 831 to 832 do. -/
def generateAllOrientations (adj : ℕ → Finset ℕ) (opts : Options) (n : ℕ)
    (idx : ℕ → ℕ → ℕ) (afuel cfuel : ℕ) :
    ℕ → ℕ → List (Finset ℕ) → DiGraph → ℤ → ℤ → GenResult
  | 0, total, pool, _, _, _ => ⟨0, total, pool, []⟩
  | fuel + 1, total, pool, g, e1, e2 =>
    if e2 = -1 ∧ e1 < (n : ℤ) - 1 then
      generateAllOrientations adj opts n idx afuel cfuel fuel total pool g (e1 + 1)
        (next (adj (e1 + 1).toNat) (e1 + 1))
    else if e2 = -1 ∧ e1 = (n : ℤ) - 1 then
      let total1 := total + 1
      if opts.singleGraphFlag ∧ (total1 : ℤ) % opts.modulo ≠ opts.remainder then
        ⟨0, total1, pool, [(total1, g)]⟩
      else if ¬ isStronglyConnected g then ⟨0, total1, pool, [(total1, g)]⟩
      else
        let S := getDeletableEdges g n idx
        if ∃ i ∈ Finset.range n, ∀ nbr ∈ adj i, idx i nbr ∉ S then
          ⟨0, total1, pool, [(total1, g)]⟩
        else if ¬ opts.bruteForceFlag then
          if hasComplementaryOrientation adj n S idx afuel cfuel then
            ⟨2, total1, pool, [(total1, g)]⟩
          else ⟨0, total1, pool, [(total1, g)]⟩
        else
          let r := getIntermediateFrankNumber n pool S
          ⟨r.1, total1, r.2, [(total1, g)]⟩
    else
      let g1 := addArc g e1.toNat e2.toNat
      let r1 :=
        if (g1.adjacencyList e1.toNat).card ≠ 3 ∧
            (g1.reverseAdjacencyList e2.toNat).card ≠ 3 then
          generateAllOrientations adj opts n idx afuel cfuel fuel total pool g1 e1
            (next (adj e1.toNat) e2)
        else ⟨0, total, pool, []⟩
      if r1.frankNumber ≠ 0 then r1
      else
        let g2 := addArc g e2.toNat e1.toNat
        let r2 :=
          if (g2.reverseAdjacencyList e1.toNat).card ≠ 3 ∧
              (g2.adjacencyList e2.toNat).card ≠ 3 then
            generateAllOrientations adj opts n idx afuel cfuel fuel
              r1.totalOrientationsGenerated r1.pool g2 e1 (next (adj e1.toNat) e2)
          else ⟨0, r1.totalOrientationsGenerated, r1.pool, []⟩
        ⟨r2.frankNumber, r2.totalOrientationsGenerated, r2.pool, r1.leaves ++ r2.leaves⟩

/-- Function findFrankNumber of findFrankNumber.c: number the edges, start
from the empty orientation with endpoints -1 and -1, and return the computed
int (the bookkeeping over the stored bitsets afterwards only produces
diagnostics). -/
def findFrankNumber (adj : ℕ → Finset ℕ) (n : ℕ) (opts : Options)
    (afuel cfuel gfuel : ℕ) : ℤ :=
  (generateAllOrientations adj opts n (numberEdges adj n) afuel cfuel gfuel
    0 [] (emptyGraph n) (-1) (-1)).frankNumber

/-- The per-graph result computation of main (lines 1709 to 1742): the
heuristic verdict (a boolean, computed by hasSufficientCondition in C) gives
Frank number 2 when the heuristic is enabled and passes; otherwise, when the
exhaustive check is enabled and the result is still 0, the exact procedure
runs. -/
def driverFrankNumber (opts : Options) (heuristicPassed : Bool)
    (adj : ℕ → Finset ℕ) (n : ℕ) (afuel cfuel gfuel : ℕ) : ℤ :=
  let fn1 : ℤ := if opts.oddCyclesHeuristicFlag ∧ heuristicPassed then 2 else 0
  if opts.exhaustiveCheckFlag ∧ fn1 = 0 then findFrankNumber adj n opts afuel cfuel gfuel
  else fn1

/-- The output decision of main (lines 1743 to 1762): a graph with result 0
is printed to stdout when the complement flag is off, a graph with result 2
is printed when it is on. -/
def driverEmitsGraph (opts : Options) (fn : ℤ) : Bool :=
  decide ((fn = 0 ∧ ¬ opts.complementFlag) ∨ (fn = 2 ∧ opts.complementFlag))

/-- Function hasSufficientCondition of findFrankNumber.c: enumeration of the
perfect matchings.  The matching array F (int valued, -1 able, uninitialised
in C) is threaded as a function to the integers and returned, so its final
state is observable.  The test performed at a leaf (the two-odd-cycle
configuration analysis of lines 1212 to 1358, which reads adjacencyList and F
but never writes F) is abstracted into the parameter leafCheck; the claims
settled against this embedding concern only the enumeration and its effect on
F, which do not depend on the leaf test.  The recursion depth is bounded by
half the number of vertices, so generous fuel reproduces the C recursion. -/
def hasSufficientCondition (adj : ℕ → Finset ℕ) (leafCheck : (ℕ → ℤ) → Bool) :
    ℕ → Finset ℕ → (ℕ → ℤ) → Bool × (ℕ → ℤ)
  | 0, _, F => (false, F)
  | fuel + 1, remainingVertices, F =>
    let nv := next remainingVertices (-1)
    if nv = -1 then (leafCheck F, F)
    else
      (sortedList (adj nv.toNat ∩ remainingVertices)).foldl
        (fun st w =>
          if st.1 then st
          else
            let F1 : ℕ → ℤ := fun v =>
              if v = w then nv else if v = nv.toNat then (w : ℤ) else st.2 v
            hasSufficientCondition adj leafCheck fuel
              (remainingVertices \ {nv.toNat, w}) F1)
        (false, F)

/-- Embeds the verification phase of verifyOddnessHeuristicOrientations of
findFrankNumber.c (lines 1485 to 1513): the two orientations built in the
construction phase of the function are taken as parameters, and the two
exit(1) calls are modelled by Except.error. -/
def verifyOddnessCheckPhase (adj : ℕ → Finset ℕ) (n : ℕ) (o1 o2 : DiGraph) :
    Except Unit Unit :=
  if ¬ isStronglyConnected o1 ∨ ¬ isStronglyConnected o2 then Except.error ()
  else
    let idx := numberEdges adj n
    let d1 := getDeletableEdges o1 n idx
    let d2 := getDeletableEdges o2 n idx
    if d1 ∪ d2 = fullSet (3 * n / 2) then Except.ok () else Except.error ()

/-- Function getNumberOfVertices of readGraph6.c, over the byte values of the
line.  Bytes are ASCII here, so the signedness of char is immaterial. -/
def getNumberOfVertices (s : List ℕ) : ℤ :=
  if s.length = 0 then -1
  else if (s.getD 0 0 < 63 ∨ 126 < s.getD 0 0) ∧ s.getD 0 0 ≠ 62 ∧ s.getD 0 0 ≠ 38 then -1
  else
    let i0 := if s.getD 0 0 = 62 then (s.findIdx fun c => c = 60) + 1 else 0
    let i1 := if s.getD i0 0 = 38 then i0 + 1 else i0
    if s.getD i1 0 < 126 then (s.getD i1 0 : ℤ) - 63
    else if s.getD (i1 + 1) 0 < 126 then
      (((((s.getD (i1 + 1) 0 - 63) <<< 12) ||| ((s.getD (i1 + 2) 0 - 63) <<< 6) |||
        (s.getD (i1 + 3) 0 - 63)) : ℕ) : ℤ)
    else if s.getD (i1 + 2) 0 < 126 then
      (((((s.getD (i1 + 2) 0 - 63) <<< 30) ||| ((s.getD (i1 + 3) 0 - 63) <<< 24) |||
        ((s.getD (i1 + 4) 0 - 63) <<< 18) ||| ((s.getD (i1 + 5) 0 - 63) <<< 12) |||
        ((s.getD (i1 + 6) 0 - 63) <<< 6) ||| (s.getD (i1 + 7) 0 - 63)) : ℕ) : ℤ)
    else -1

/-- The inner while loop of loadGraph of readGraph6.c advancing currentVertex
and sum up to the column of edge-bit position p; the fuel p + 2 suffices
because sum grows by at least one per iteration. -/
def loadGraphAdvance : ℕ → ℕ → ℕ → ℕ → ℕ × ℕ
  | 0, _, sum, cv => (sum, cv)
  | fuelA + 1, p, sum, cv =>
    if sum ≤ p then loadGraphAdvance fuelA p (sum + cv) (cv + 1) else (sum, cv)

/-- One set edge-bit of loadGraph of readGraph6.c at position p: run the
while loop, decrement currentVertex, adjust sum, compute the neighbour and
add the edge in both directions. -/
def loadGraphPosition (p : ℕ) (st : ℕ × ℕ × (ℕ → Finset ℕ)) :
    ℕ × ℕ × (ℕ → Finset ℕ) :=
  let r := loadGraphAdvance (p + 2) p st.1 st.2.1
  let cv := r.2 - 1
  let sum := r.1 - cv
  let neighbour := p - sum
  let a0 := st.2.2
  let a1 := fun v => if v = cv then insert neighbour (a0 cv) else a0 v
  let a2 := fun v => if v = neighbour then insert cv (a1 neighbour) else a1 v
  (sum, cv, a2)

/-- Function loadGraph of readGraph6.c: decode the edge bits of a graph6 line
(bytes of the line, the terminating newline included when present) into an
adjacency function; none models the return value -1. -/
def loadGraph (s : List ℕ) (numberOfVertices : ℕ) : Option (ℕ → Finset ℕ) :=
  if 62 < numberOfVertices ∧ MAXVERTICES < numberOfVertices then none
  else
    let startIndex := (if s.getD 0 0 = 62 then 10 else 0) +
      (if numberOfVertices ≤ 62 then 1 else 4)
    let rest := s.drop startIndex
    let body := rest.takeWhile fun c => c ≠ 10
    if body.length = rest.length then none
    else
      let stF := body.enum.foldl
        (fun st (pair : ℕ × ℕ) =>
          (List.range 6).foldl
            (fun st2 k =>
              if Nat.testBit (pair.2 - 63) (5 - k) then
                loadGraphPosition (k + 6 * pair.1) st2
              else st2)
            st)
        (((0 : ℕ), (1 : ℕ), fun _ => (∅ : Finset ℕ)) : ℕ × ℕ × (ℕ → Finset ℕ))
      some stF.2.2

/-- The acceptance decision of main (lines 1670 to 1696): a line is processed
further exactly when getNumberOfVertices does not fail, the vertex count and
the edge count fit the build-time bound, and loadGraph succeeds. -/
def driverAccepts (s : List ℕ) : Bool :=
  let nv := getNumberOfVertices s
  if nv = -1 ∨ (MAXVERTICES : ℤ) < nv then false
  else if (MAXVERTICES : ℤ) < nv * 3 / 2 then false
  else
    match loadGraph s nv.toNat with
    | none => false
    | some _ => true

/-- The complete graph on four vertices, the smallest cubic graph. -/
def k4Adj : ℕ → Finset ℕ := fun v =>
  if v = 0 then {1, 2, 3} else if v = 1 then {0, 2, 3}
  else if v = 2 then {0, 1, 3} else if v = 3 then {0, 1, 2} else ∅

/-- The 3-prism (two triangles 0 1 2 and 3 4 5 joined by rungs i to i+3),
cubic and 3-edge-connected but not cyclically 4-edge-connected. -/
def prismAdj : ℕ → Finset ℕ := fun v =>
  if v = 0 then {1, 2, 3} else if v = 1 then {0, 2, 4}
  else if v = 2 then {0, 1, 5} else if v = 3 then {0, 4, 5}
  else if v = 4 then {1, 3, 5} else if v = 5 then {2, 3, 4} else ∅

/-- The complete bipartite graph on parts 0 1 2 and 3 4 5. -/
def k33Adj : ℕ → Finset ℕ := fun v =>
  if v = 0 ∨ v = 1 ∨ v = 2 then {3, 4, 5}
  else if v = 3 ∨ v = 4 ∨ v = 5 then {0, 1, 2} else ∅

/-- A directed triangle, the smallest strongly connected orientation. -/
def cycle3D : DiGraph :=
  ⟨3,
   fun v => if v = 0 then {1} else if v = 1 then {2} else if v = 2 then {0} else ∅,
   fun v => if v = 0 then {2} else if v = 1 then {0} else if v = 2 then {1} else ∅,
   3⟩

/-- The list of edges (u, v) with u smaller than v of an undirected adjacency
function on n vertices, in the scan order of numberEdges. -/
def edgeList (adj : ℕ → Finset ℕ) (n : ℕ) : List (ℕ × ℕ) :=
  (List.range n).flatMap fun u =>
    (sortedList ((adj u).filter fun w => u < w)).map fun v => (u, v)

/-- The orientation of a graph selected by the bits of mask: edge number k is
oriented from its smaller endpoint exactly when bit k of mask is set. -/
def orientationFromMask (adj : ℕ → Finset ℕ) (n : ℕ) (mask : ℕ) : DiGraph :=
  ((edgeList adj n).enum).foldl
    (fun g p =>
      if Nat.testBit mask p.1 then addArc g p.2.1 p.2.2 else addArc g p.2.2 p.2.1)
    (emptyGraph n)

/-- Written from the words of the spec for the refinement claim about
hasComplementaryOrientation: there is a strong orientation of the graph whose
deletable-edge set together with S covers all edge numbers. -/
def existsComplementaryStrongOrientation (adj : ℕ → Finset ℕ) (n : ℕ)
    (S : Finset ℕ) (idx : ℕ → ℕ → ℕ) : Prop :=
  ∃ mask ∈ Finset.range (2 ^ (edgeList adj n).length),
    isStronglyConnected (orientationFromMask adj n mask) = true ∧
    S ∪ getDeletableEdges (orientationFromMask adj n mask) n idx = fullSet (3 * n / 2)

/-- Options for a run with single-graph sharding whose res/mod class is never
hit, so every candidate orientation is skipped right after receiving its
index and the enumeration is never cut short by a result 2. -/
def optsNoProcess : Options := ⟨false, false, false, true, false, true, 1000000, 999999⟩

/-- Options for a plain brute-force run (flag -b, no sharding). -/
def optsBruteForce : Options := ⟨true, false, false, true, false, false, 1, 0⟩

/-- The full enumeration run of generateAllOrientations on K4 (all candidates
skipped by the sharding filter, so the trace is complete). -/
def k4Enum : GenResult :=
  generateAllOrientations k4Adj optsNoProcess 4 (numberEdges k4Adj 4) 30 100 100
    0 [] (emptyGraph 4) (-1) (-1)

/-- The full enumeration run of generateAllOrientations on the 3-prism. -/
def prismEnum : GenResult :=
  generateAllOrientations prismAdj optsNoProcess 6 (numberEdges prismAdj 6) 30 100 100
    0 [] (emptyGraph 6) (-1) (-1)

/-- A leaf test that always fails, modelling a 2-factor in which no
configuration of the sufficient condition is ever present. -/
def falseLeafCheck : (ℕ → ℤ) → Bool := fun _ => false

/-- An initial matching array with every entry -1. -/
def unsetF : ℕ → ℤ := fun _ => -1

/-- Pairwise incomparability of two pool entries, ignoring empty slots. -/
def PoolIncomp (A B : Finset ℕ) : Prop := A ≠ ∅ → B ≠ ∅ → ¬ A ⊆ B ∧ ¬ B ⊆ A

/-- Every non-empty entry of the pool is the deletable-edge set of some
orientation. -/
def PoolInv (n : ℕ) (idx : ℕ → ℕ → ℕ) (pool : List (Finset ℕ)) : Prop :=
  ∀ A ∈ pool, A = ∅ ∨ ∃ D, A = getDeletableEdges D n idx

/-- Arc containment between two digraphs. -/
def SubOrientation (g g' : DiGraph) : Prop :=
  ∀ u v, v ∈ g.adjacencyList u → v ∈ g'.adjacencyList u

/-- A (partial) orientation of the undirected graph adj: the two adjacency
directions mirror each other, every arc lies on an edge of adj, and no edge
carries both directions. -/
def ProperOrientation (adj : ℕ → Finset ℕ) (g : DiGraph) : Prop :=
  (∀ u v, v ∈ g.adjacencyList u ↔ u ∈ g.reverseAdjacencyList v) ∧
  (∀ u v, v ∈ g.adjacencyList u → v ∈ adj u) ∧
  (∀ u v, v ∈ g.adjacencyList u → u ∉ g.adjacencyList v)

/-- An undirected cubic graph on the vertices below n, as an adjacency
function: symmetric, loop free, supported on the first n vertices, and with
every vertex of degree three. -/
def CubicGraph (adj : ℕ → Finset ℕ) (n : ℕ) : Prop :=
  (∀ u v, v ∈ adj u → u ∈ adj v) ∧
  (∀ u, u ∉ adj u) ∧
  (∀ u v, v ∈ adj u → u < n ∧ v < n) ∧
  (∀ u, u < n → (adj u).card = 3)

/-- Every non-empty entry of the pool is the deletable-edge set of some
strongly connected proper orientation of the graph. -/
def PoolOrient (adj : ℕ → Finset ℕ) (n : ℕ) (idx : ℕ → ℕ → ℕ)
    (pool : List (Finset ℕ)) : Prop :=
  ∀ A ∈ pool, A = ∅ ∨ ∃ D, ProperOrientation adj D ∧
    isStronglyConnected D = true ∧ A = getDeletableEdges D n idx

instance : DecidableRel PoolIncomp := fun _ _ => by unfold PoolIncomp; infer_instance

/-- Arc relation of an adjacency function: an arc from a to b is present. -/
def ArcRel (adj : ℕ → Finset ℕ) (a b : ℕ) : Prop := b ∈ adj a

/-- Specification of containsDirectedPathBetween: a directed path from i to e
of length at least one whose inner vertices are pairwise distinct, different
from i, and members of the allowed set. -/
def ReachesVia (adj : ℕ → Finset ℕ) (allowed : Finset ℕ) (i e : ℕ) : Prop :=
  ∃ p : List ℕ,
    List.Chain' (ArcRel adj) (i :: p ++ [e]) ∧ (i :: p).Nodup ∧ ∀ x ∈ p, x ∈ allowed

theorem mem_sortedList {s : Finset ℕ} {x : ℕ} : x ∈ sortedList s ↔ x ∈ s := by
  rcases s with ⟨m, hm⟩
  rcases m with ⟨l⟩
  show x ∈ List.insertionSort (· ≤ ·) l ↔ _
  rw [(List.perm_insertionSort (· ≤ ·) l).mem_iff]
  rfl

theorem next_mem {s : Finset ℕ} {i : ℤ} (h : next s i ≠ -1) :
    (next s i).toNat ∈ s ∧ i < next s i := by
  unfold next at *
  by_cases hne : (s.filter fun x : ℕ => i < (x : ℤ)).Nonempty
  · have hmem := (s.filter fun x : ℕ => i < (x : ℤ)).min'_mem hne
    rw [Finset.mem_filter] at hmem
    simp only [hne, dif_pos]
    exact ⟨by simpa using hmem.1, by simpa using hmem.2⟩
  · simp [hne] at h

theorem next_of_mem {s : Finset ℕ} {i : ℤ} {x : ℕ} (hx : x ∈ s) (hi : i < (x : ℤ)) :
    next s i ≠ -1 ∧ next s i ≤ (x : ℤ) := by
  unfold next
  have hne : (s.filter fun y : ℕ => i < (y : ℤ)).Nonempty :=
    ⟨x, Finset.mem_filter.mpr ⟨hx, hi⟩⟩
  simp only [hne, dif_pos]
  have hle := (s.filter fun y : ℕ => i < (y : ℤ)).min'_le x (Finset.mem_filter.mpr ⟨hx, hi⟩)
  constructor
  · intro hcon
    have := (Finset.mem_filter.mp ((s.filter fun y : ℕ => i < (y : ℤ)).min'_mem hne)).2
    omega
  · exact_mod_cast hle

theorem containsDirectedPathBetween_sound {adj : ℕ → Finset ℕ} :
    ∀ {fuel : ℕ} {unvis : Finset ℕ} {i e : ℕ},
      containsDirectedPathBetween adj fuel unvis i e = true →
      ReachesVia adj (unvis.erase i) i e := by
  intro fuel
  induction fuel with
  | zero => intro unvis i e h; simp [containsDirectedPathBetween] at h
  | succ f ih =>
    intro unvis i e h
    rw [containsDirectedPathBetween] at h
    by_cases hdir : e ∈ adj i
    · exact ⟨[], by simpa [ArcRel] using hdir, by simp, by simp⟩
    · rw [if_neg hdir, List.any_eq_true] at h
      obtain ⟨x, hxl, hx⟩ := h
      rw [mem_sortedList, Finset.mem_inter] at hxl
      obtain ⟨q, hch, hnd, hmem⟩ := ih hx
      refine ⟨x :: q, ?_, ?_, ?_⟩
      · have hc : List.Chain' (ArcRel adj) (i :: x :: (q ++ [e])) :=
          List.chain'_cons.mpr ⟨hxl.1, by simpa using hch⟩
        simpa using hc
      · rw [List.nodup_cons]
        refine ⟨?_, hnd⟩
        rw [List.mem_cons]
        rintro (rfl | hiq)
        · exact absurd hxl.2 (by simp)
        · exact absurd ((Finset.mem_erase.mp (hmem i hiq)).2) (by simp)
      · intro z hz
        rw [List.mem_cons] at hz
        rcases hz with rfl | hz
        · exact hxl.2
        · exact Finset.mem_of_mem_erase (hmem z hz)

theorem containsDirectedPathBetween_complete {adj : ℕ → Finset ℕ} :
    ∀ (p : List ℕ) {fuel : ℕ} {unvis : Finset ℕ} {i e : ℕ},
      p.length + 1 ≤ fuel →
      List.Chain' (ArcRel adj) (i :: p ++ [e]) → (i :: p).Nodup →
      (∀ x ∈ p, x ∈ unvis) →
      containsDirectedPathBetween adj fuel unvis i e = true := by
  intro p
  induction p with
  | nil =>
    intro fuel unvis i e hfuel hch _ _
    match fuel, hfuel with
    | f + 1, _ =>
      rw [containsDirectedPathBetween]
      have : ArcRel adj i e := by
        simpa using hch.rel_head
      simp [this, ArcRel] at *
      simp [this]
  | cons x q ih =>
    intro fuel unvis i e hfuel hch hnd hmem
    match fuel, hfuel with
    | f + 1, hfuel =>
      rw [containsDirectedPathBetween]
      by_cases hdir : e ∈ adj i
      · simp [hdir]
      · rw [if_neg hdir, List.any_eq_true]
        have hxadj : x ∈ adj i := by
          have := (List.chain'_cons.mp (by simpa using hch)).1
          exact this
        have hxi : x ≠ i := by
          have := (List.nodup_cons.mp hnd).1
          intro hcon; exact this (by simp [hcon])
        refine ⟨x, ?_, ?_⟩
        · rw [mem_sortedList, Finset.mem_inter]
          exact ⟨hxadj, Finset.mem_erase.mpr ⟨hxi, hmem x (by simp)⟩⟩
        · apply ih (by simp only [List.length_cons] at hfuel; omega)
          · exact (List.chain'_cons.mp (by simpa using hch)).2
          · exact (List.nodup_cons.mp hnd).2
          · intro z hz
            refine Finset.mem_erase.mpr ⟨?_, hmem z (by simp [hz])⟩
            intro hcon
            exact (List.nodup_cons.mp hnd).1 (by simp [hcon ▸ hz])

theorem containsDirectedPathBetween_full_iff {adj : ℕ → Finset ℕ} {n i e : ℕ} :
    containsDirectedPathBetween adj (n + 1) (fullSet n) i e = true ↔
      ReachesVia adj ((fullSet n).erase i) i e := by
  constructor
  · exact containsDirectedPathBetween_sound
  · rintro ⟨p, hch, hnd, hmem⟩
    have hp : p.Nodup := (List.nodup_cons.mp hnd).2
    have hlen : p.length ≤ n := by
      have hsub : p.toFinset ⊆ fullSet n := by
        intro z hz
        rw [List.mem_toFinset] at hz
        exact Finset.mem_of_mem_erase (hmem z hz)
      have := Finset.card_le_card hsub
      rw [List.toFinset_card_of_nodup hp] at this
      simpa [fullSet] using this
    exact containsDirectedPathBetween_complete p (by omega) hch hnd
      fun x hx => Finset.mem_of_mem_erase (hmem x hx)

theorem reachesVia_reverse_of_not_mem {A B : ℕ → Finset ℕ}
    (hT : ∀ a b, b ∈ A a ↔ a ∈ B b) {n i e : ℕ} {p : List ℕ}
    (hch : List.Chain' (ArcRel A) (i :: p ++ [e])) (hnd : (i :: p).Nodup)
    (hmem : ∀ x ∈ p, x ∈ (fullSet n).erase i) (hep : e ∉ p) :
    ReachesVia B ((fullSet n).erase e) e i := by
  refine ⟨p.reverse, ?_, ?_, ?_⟩
  · have hrev : (e :: p.reverse ++ [i]) = (i :: p ++ [e]).reverse := by
      simp
    rw [hrev, List.chain'_reverse]
    exact hch.imp fun a b hab => (hT a b).mp hab
  · rw [List.nodup_cons, List.mem_reverse, List.nodup_reverse]
    exact ⟨hep, (List.nodup_cons.mp hnd).2⟩
  · intro x hx
    rw [List.mem_reverse] at hx
    refine Finset.mem_erase.mpr ⟨?_, Finset.mem_of_mem_erase (hmem x hx)⟩
    intro hcon; exact hep (hcon ▸ hx)

theorem reachesVia_reverse {A B : ℕ → Finset ℕ}
    (hT : ∀ a b, b ∈ A a ↔ a ∈ B b) {n i e : ℕ}
    (h : ReachesVia A ((fullSet n).erase i) i e) :
    ReachesVia B ((fullSet n).erase e) e i := by
  obtain ⟨p, hch, hnd, hmem⟩ := h
  by_cases hep : e ∈ p
  · obtain ⟨p₁, p₂, rfl⟩ := List.append_of_mem hep
    have hsplit : i :: (p₁ ++ e :: p₂) ++ [e] = (i :: p₁ ++ [e]) ++ (p₂ ++ [e]) := by
      simp
    have hch₁ : List.Chain' (ArcRel A) (i :: p₁ ++ [e]) := by
      apply hch.prefix
      rw [hsplit]
      exact ⟨p₂ ++ [e], rfl⟩
    have hnd₁ : (i :: p₁).Nodup := by
      have hsub : List.Sublist (i :: p₁) (i :: (p₁ ++ e :: p₂)) :=
        List.cons_sublist_cons.mpr (List.sublist_append_left p₁ (e :: p₂))
      exact hnd.sublist hsub
    have hep₁ : e ∉ p₁ := by
      have := (List.nodup_cons.mp hnd).2
      rw [List.nodup_append] at this
      intro hcon
      exact this.2.2 hcon (by simp)
    exact reachesVia_reverse_of_not_mem hT hch₁ hnd₁
      (fun x hx => hmem x (by simp [hx])) hep₁
  · exact reachesVia_reverse_of_not_mem hT hch hnd hmem hep

theorem mem_getDeletableEdges {g : DiGraph} {n : ℕ} {idx : ℕ → ℕ → ℕ} {e : ℕ} :
    e ∈ getDeletableEdges g n idx ↔
      ∃ i, i < n ∧ ∃ v, v ∈ g.adjacencyList i ∧
        containsDirectedPathBetween (removeArc g i v).adjacencyList
          (n + 1) (fullSet n) i v = true ∧ idx i v = e := by
  unfold getDeletableEdges
  simp only [Finset.mem_biUnion, Finset.mem_image, Finset.mem_filter, Finset.mem_range]
  constructor
  · rintro ⟨i, hi, v, ⟨hv, hcp⟩, hidx⟩
    exact ⟨i, hi, v, hv, hcp, hidx⟩
  · rintro ⟨i, hi, v, hv, hcp, hidx⟩
    exact ⟨i, hi, v, ⟨hv, hcp⟩, hidx⟩

theorem getDeletableEdges_subset_reverse (g : DiGraph) (n : ℕ) (idx : ℕ → ℕ → ℕ)
    (hwf : ∀ u v, v ∈ g.adjacencyList u ↔ u ∈ g.reverseAdjacencyList v)
    (hbound : ∀ u v, v ∈ g.adjacencyList u → u < n ∧ v < n)
    (hsym : ∀ u v, idx u v = idx v u) :
    getDeletableEdges g n idx ⊆ getDeletableEdges (reverseDiGraph g) n idx := by
  intro e he
  rw [mem_getDeletableEdges] at he ⊢
  obtain ⟨i, hi, v, hv, hcp, hidx⟩ := he
  have hvn : v < n := (hbound i v hv).2
  refine ⟨v, hvn, i, ?_, ?_, ?_⟩
  · show i ∈ g.reverseAdjacencyList v
    exact (hwf i v).mp hv
  · rw [containsDirectedPathBetween_full_iff] at hcp ⊢
    apply reachesVia_reverse (A := (removeArc g i v).adjacencyList) ?_ hcp
    intro a b
    show b ∈ (removeArc g i v).adjacencyList a ↔
      a ∈ (removeArc (reverseDiGraph g) v i).adjacencyList b
    simp only [removeArc, reverseDiGraph]
    by_cases ha : a = i <;> by_cases hb : b = v <;>
      simp [ha, hb, Finset.mem_erase, hwf, and_comm]
  · rw [hsym v i]; exact hidx

/-- C9: For a strongly connected orientation of a graph with a symmetric edge
numbering, the deletable-edge set computed by getDeletableEdges equals the one
of the reversal of the orientation (every arc reversed). -/
theorem deletable_set_symmetry (g : DiGraph) (n : ℕ) (idx : ℕ → ℕ → ℕ)
    (hwf : ∀ u v, v ∈ g.adjacencyList u ↔ u ∈ g.reverseAdjacencyList v)
    (hbound : ∀ u v, v ∈ g.adjacencyList u → u < n ∧ v < n)
    (hsym : ∀ u v, idx u v = idx v u)
    (_hstrong : isStronglyConnected g = true) :
    getDeletableEdges g n idx = getDeletableEdges (reverseDiGraph g) n idx := by
  apply Finset.Subset.antisymm
  · exact getDeletableEdges_subset_reverse g n idx hwf hbound hsym
  · have h2 := getDeletableEdges_subset_reverse (reverseDiGraph g) n idx
      (fun u v => (hwf v u).symm)
      (fun u v hv => ((hbound v u ((hwf v u).mpr hv)).symm))
      hsym
    have hrr : reverseDiGraph (reverseDiGraph g) = g := rfl
    rw [hrr] at h2
    exact h2

theorem gifnGo_spec (T all : Finset ℕ) :
    ∀ (pool : List (Finset ℕ)) (es : Bool),
      (∀ B ∈ (gifnGo T all es pool).2, B ∈ pool ∨ B = ∅ ∨ B = T) ∧
      ((gifnGo T all es pool).1 = GifnOut.fellthrough →
        ∀ B ∈ (gifnGo T all es pool).2, B ≠ ∅ → ¬ T ⊆ B ∧ ¬ B ⊆ T) ∧
      ((gifnGo T all es pool).1 = GifnOut.stored →
        ∀ B ∈ (gifnGo T all es pool).2, B ≠ ∅ → B = T ∨ (¬ T ⊆ B ∧ ¬ B ⊆ T)) ∧
      (pool.Pairwise PoolIncomp → (gifnGo T all es pool).2.Pairwise PoolIncomp) := by
  intro pool
  induction pool with
  | nil =>
    intro es
    refine ⟨?_, ?_, ?_, ?_⟩ <;> simp [gifnGo]
  | cons A rest ih =>
    intro es
    by_cases hA : A ≠ ∅
    · by_cases hTA : T ⊆ A
      · have hg : gifnGo T all es (A :: rest) = (GifnOut.early0, A :: rest) := by
          simp [gifnGo, hA, hTA]
        rw [hg]
        refine ⟨fun B hB => Or.inl hB, ?_, ?_, fun hp => hp⟩ <;> intro h <;> simp at h
      · by_cases hAT : A ⊆ T
        · -- the slot is tombstoned before the union test
          have e1 : (if A ⊆ T then (∅ : Finset ℕ) else A) = ∅ := if_pos hAT
          by_cases hU : T = all
          · have hg : gifnGo T all es (A :: rest) = (GifnOut.early2, ∅ :: rest) := by
              simp only [gifnGo, e1, Finset.union_empty]
              rw [if_pos hA, if_neg hTA, if_pos hU]
            rw [hg]
            refine ⟨?_, ?_, ?_, ?_⟩
            · intro B hB
              rcases List.mem_cons.mp hB with rfl | hB
              · exact Or.inr (Or.inl rfl)
              · exact Or.inl (List.mem_cons_of_mem _ hB)
            · intro h; simp at h
            · intro h; simp at h
            · intro hp
              exact List.Pairwise.cons (fun B _ hne => absurd rfl hne) hp.tail
          · obtain ⟨ihShape, ihFell, ihStored, ihPair⟩ := ih es
            have hg : gifnGo T all es (A :: rest) =
                ((gifnGo T all es rest).1, ∅ :: (gifnGo T all es rest).2) := by
              simp only [gifnGo, e1, Finset.union_empty]
              rw [if_pos hA, if_neg hTA, if_neg hU]
            rw [hg]
            refine ⟨?_, ?_, ?_, ?_⟩
            · intro B hB
              rcases List.mem_cons.mp hB with rfl | hB
              · exact Or.inr (Or.inl rfl)
              · rcases ihShape B hB with h | h
                · exact Or.inl (List.mem_cons_of_mem _ h)
                · exact Or.inr h
            · intro hout B hB hBne
              rcases List.mem_cons.mp hB with rfl | hB
              · exact absurd rfl hBne
              · exact ihFell hout B hB hBne
            · intro hout B hB hBne
              rcases List.mem_cons.mp hB with rfl | hB
              · exact absurd rfl hBne
              · exact ihStored hout B hB hBne
            · intro hp
              exact List.Pairwise.cons (fun B _ hne => absurd rfl hne) (ihPair hp.tail)
        · -- the slot survives
          by_cases hU : T ∪ A = all
          · have hg : gifnGo T all es (A :: rest) = (GifnOut.early2, A :: rest) := by
              simp [gifnGo, hA, hTA, hAT, hU]
            rw [hg]
            refine ⟨fun B hB => Or.inl hB, ?_, ?_, fun hp => hp⟩ <;> intro h <;> simp at h
          · obtain ⟨ihShape, ihFell, ihStored, ihPair⟩ := ih es
            have hg : gifnGo T all es (A :: rest) =
                ((gifnGo T all es rest).1, A :: (gifnGo T all es rest).2) := by
              simp [gifnGo, hA, hTA, hAT, hU]
            rw [hg]
            refine ⟨?_, ?_, ?_, ?_⟩
            · intro B hB
              rcases List.mem_cons.mp hB with rfl | hB
              · exact Or.inl (List.mem_cons_self _ _)
              · rcases ihShape B hB with h | h
                · exact Or.inl (List.mem_cons_of_mem _ h)
                · exact Or.inr h
            · intro hout B hB hBne
              rcases List.mem_cons.mp hB with rfl | hB
              · exact ⟨hTA, hAT⟩
              · exact ihFell hout B hB hBne
            · intro hout B hB hBne
              rcases List.mem_cons.mp hB with rfl | hB
              · exact Or.inr ⟨hTA, hAT⟩
              · exact ihStored hout B hB hBne
            · intro hp
              refine List.Pairwise.cons ?_ (ihPair hp.tail)
              intro B hB
              rcases ihShape B hB with h | h | h
              · exact List.rel_of_pairwise_cons hp h
              · exact fun _ hne => absurd h hne
              · subst h
                exact fun _ _ => ⟨hAT, hTA⟩
    · -- empty slot
      rw [not_not] at hA
      subst hA
      obtain ⟨ihShape, ihFell, ihStored, ihPair⟩ := ih true
      by_cases hsf : es = false ∧ (gifnGo T all true rest).1 = GifnOut.fellthrough
      · have hg : gifnGo T all es ((∅ : Finset ℕ) :: rest) =
            (GifnOut.stored, T :: (gifnGo T all true rest).2) := by
          simp [gifnGo, hsf.1, hsf.2]
        rw [hg]
        refine ⟨?_, ?_, ?_, ?_⟩
        · intro B hB
          rcases List.mem_cons.mp hB with rfl | hB
          · exact Or.inr (Or.inr rfl)
          · rcases ihShape B hB with h | h
            · exact Or.inl (List.mem_cons_of_mem _ h)
            · exact Or.inr h
        · intro h; simp at h
        · intro _ B hB hBne
          rcases List.mem_cons.mp hB with rfl | hB
          · exact Or.inl rfl
          · exact Or.inr (ihFell hsf.2 B hB hBne)
        · intro hp
          refine List.Pairwise.cons ?_ (ihPair hp.tail)
          intro B hB hTne hBne
          exact (ihFell hsf.2 B hB hBne)
      · have hg : gifnGo T all es ((∅ : Finset ℕ) :: rest) =
            ((gifnGo T all true rest).1, (∅ : Finset ℕ) :: (gifnGo T all true rest).2) := by
          rcases Bool.eq_false_or_eq_true es with hes | hes
          · simp [gifnGo, hes]
          · have hnf : (gifnGo T all true rest).1 ≠ GifnOut.fellthrough := by
              intro hcon; exact hsf ⟨hes, hcon⟩
            simp [gifnGo, hes, hnf]
        rw [hg]
        refine ⟨?_, ?_, ?_, ?_⟩
        · intro B hB
          rcases List.mem_cons.mp hB with rfl | hB
          · exact Or.inr (Or.inl rfl)
          · rcases ihShape B hB with h | h
            · exact Or.inl (List.mem_cons_of_mem _ h)
            · exact Or.inr h
        · intro hout B hB hBne
          rcases List.mem_cons.mp hB with rfl | hB
          · exact absurd rfl hBne
          · exact ihFell hout B hB hBne
        · intro hout B hB hBne
          rcases List.mem_cons.mp hB with rfl | hB
          · exact absurd rfl hBne
          · exact ihStored hout B hB hBne
        · intro hp
          exact List.Pairwise.cons (fun B _ hne => absurd rfl hne) (ihPair hp.tail)

/-- C10: starting from an empty pool, and as long as getIntermediateFrankNumber
keeps returning 0, the non-empty deletable-edge bitsets stored in the pool stay
pairwise incomparable under inclusion, and each such call preserves the
invariant. -/
theorem pool_pairwise_incomparable :
    (([] : List (Finset ℕ)).Pairwise PoolIncomp) ∧
    ∀ (n : ℕ) (pool : List (Finset ℕ)) (T : Finset ℕ),
      pool.Pairwise PoolIncomp →
      (getIntermediateFrankNumber n pool T).1 = 0 →
      (getIntermediateFrankNumber n pool T).2.Pairwise PoolIncomp := by
  refine ⟨List.Pairwise.nil, ?_⟩
  intro n pool T hp hz
  obtain ⟨hShape, hFell, hStored, hPair⟩ :=
    gifnGo_spec T (fullSet (3 * n / 2)) pool false
  rcases hgg : gifnGo T (fullSet (3 * n / 2)) false pool with ⟨out, l⟩
  rw [hgg] at hShape hFell hStored hPair
  cases out with
  | early0 =>
    have hw : getIntermediateFrankNumber n pool T = (0, l) := by
      unfold getIntermediateFrankNumber; rw [hgg]
    rw [hw]
    exact hPair hp
  | early2 =>
    have hw : getIntermediateFrankNumber n pool T = (2, l ++ [T]) := by
      unfold getIntermediateFrankNumber; rw [hgg]
    rw [hw] at hz
    exact absurd hz (by norm_num)
  | stored =>
    have hw : getIntermediateFrankNumber n pool T = (0, l) := by
      unfold getIntermediateFrankNumber; rw [hgg]
    rw [hw]
    exact hPair hp
  | fellthrough =>
    have hw : getIntermediateFrankNumber n pool T = (0, l ++ [T]) := by
      unfold getIntermediateFrankNumber; rw [hgg]
    rw [hw]
    show List.Pairwise PoolIncomp (l ++ [T])
    rw [List.pairwise_append]
    refine ⟨hPair hp, List.pairwise_singleton _ _, ?_⟩
    intro B hB C hC
    rw [List.mem_singleton] at hC
    subst hC
    intro hBne hTne
    obtain ⟨h1, h2⟩ := hFell rfl B hB hBne
    exact ⟨h2, h1⟩

theorem subOrientation_refl (g : DiGraph) : SubOrientation g g := fun _ _ hv => hv

theorem subOrientation_trans {g1 g2 g3 : DiGraph} (h12 : SubOrientation g1 g2)
    (h23 : SubOrientation g2 g3) : SubOrientation g1 g3 :=
  fun u v hv => h23 u v (h12 u v hv)

theorem subOrientation_addArc (g : DiGraph) (i j : ℕ) :
    SubOrientation g (addArc g i j) := by
  intro u v hv
  unfold addArc
  by_cases hu : u = i
  · subst hu; simp only [if_pos rfl]; exact Finset.mem_insert_of_mem hv
  · simp only [if_neg hu]; exact hv

theorem mem_addArc_self (g : DiGraph) (i j : ℕ) :
    j ∈ (addArc g i j).adjacencyList i := by
  unfold addArc
  simp

theorem foldlM_subOrientation (fstep : DiGraph → ℕ → Option DiGraph)
    (hf : ∀ gc e gc', fstep gc e = some gc' → SubOrientation gc gc') :
    ∀ (l : List ℕ) (gc gc' : DiGraph),
      List.foldlM fstep gc l = some gc' → SubOrientation gc gc' := by
  intro l
  induction l with
  | nil =>
    intro gc gc' hh
    injection hh with hh
    exact hh ▸ subOrientation_refl gc
  | cons e l ihl =>
    intro gc gc' hh
    rw [List.foldlM_cons] at hh
    obtain ⟨g1, hg1, hrest⟩ := Option.bind_eq_some.mp hh
    exact subOrientation_trans (hf gc e g1 hg1) (ihl g1 gc' hrest)

theorem canAddNewArc_spec (adj : ℕ → Finset ℕ) (S : Finset ℕ) (idx : ℕ → ℕ → ℕ) :
    ∀ (fuel : ℕ) (g : DiGraph) (x y : ℕ) (g' : DiGraph),
      canAddNewArc adj S idx fuel g x y = some g' →
      SubOrientation g g' ∧ y ∈ g'.adjacencyList x := by
  intro fuel
  induction fuel with
  | zero => intro g x y g' h; exact absurd h (by simp [canAddNewArc])
  | succ f ih =>
    intro g x y g' h
    have hone : ∀ (gc : DiGraph) (a b : ℕ) (gc' : DiGraph),
        canAddNewArc adj S idx f gc a b = some gc' → SubOrientation gc gc' :=
      fun gc a b gc' hh => (ih gc a b gc' hh).1
    have hifstep : ∀ (c : Prop) (inst : Decidable c) (gc : DiGraph) (a b : ℕ)
        (gc' : DiGraph),
        (@ite _ c inst (canAddNewArc adj S idx f gc a b) (some gc)) = some gc' →
        SubOrientation gc gc' := by
      intro c inst gc a b gc' hh
      split_ifs at hh with hc
      · exact hone gc a b gc' hh
      · injection hh with hh; exact hh ▸ subOrientation_refl gc
    rw [canAddNewArc] at h
    dsimp only at h
    by_cases h1 : y ∈ g.adjacencyList x
    · rw [if_pos h1] at h
      injection h with h
      exact ⟨h ▸ subOrientation_refl g, h ▸ h1⟩
    · rw [if_neg h1] at h
      by_cases h2 : x ∈ g.adjacencyList y
      · rw [if_pos h2] at h; exact absurd h (by simp)
      · rw [if_neg h2] at h
        by_cases h3 : 2 ≤ (g.adjacencyList x).card
        · rw [if_pos h3] at h; exact absurd h (by simp)
        · rw [if_neg h3] at h
          by_cases h4 : 2 ≤ (g.reverseAdjacencyList y).card
          · rw [if_pos h4] at h; exact absurd h (by simp)
          · rw [if_neg h4] at h
            by_cases hS : idx x y ∈ S
            · rw [if_pos hS] at h
              by_cases hp1 : ∃ e ∈ (adj x).erase y, idx x e ∈ S ∧ e ∈ g.adjacencyList x
              · rw [if_pos hp1] at h; exact absurd h (by simp)
              · rw [if_neg hp1] at h
                by_cases hp2 : ∃ e ∈ (adj y).erase x, idx y e ∈ S ∧
                    e ∈ g.reverseAdjacencyList y
                · rw [if_pos hp2] at h; exact absurd h (by simp)
                · rw [if_neg hp2] at h
                  obtain ⟨g2, hg2, h⟩ := Option.bind_eq_some.mp h
                  obtain ⟨g3, hg3, h⟩ := Option.bind_eq_some.mp h
                  obtain ⟨g4, hg4, h⟩ := Option.bind_eq_some.mp h
                  obtain ⟨g5, hg5, h⟩ := Option.bind_eq_some.mp h
                  obtain ⟨g6, hg6, h⟩ := Option.bind_eq_some.mp h
                  obtain ⟨g7, hg7, h⟩ := Option.bind_eq_some.mp h
                  injection h with h
                  subst h
                  have s2 := hifstep _ _ _ _ _ _ hg2
                  have s3 := hifstep _ _ _ _ _ _ hg3
                  have s4 : SubOrientation g3 g4 := by
                    refine foldlM_subOrientation _ ?_ _ _ _ hg4
                    intro gc e gc' hh
                    split_ifs at hh with hc
                    · exact hone gc e x gc' hh
                    · injection hh with hh; exact hh ▸ subOrientation_refl gc
                  have s5 : SubOrientation g4 g5 := by
                    refine foldlM_subOrientation _ ?_ _ _ _ hg5
                    intro gc e gc' hh
                    split_ifs at hh with hc
                    · exact hone gc y e gc' hh
                    · injection hh with hh; exact hh ▸ subOrientation_refl gc
                  have s6 : SubOrientation g5 g6 := by
                    split_ifs at hg6 with hc
                    · refine foldlM_subOrientation _ ?_ _ _ _ hg6
                      intro gc e gc' hh
                      exact hone gc e x gc' hh
                    · injection hg6 with hg6; exact hg6 ▸ subOrientation_refl g5
                  have s7 : SubOrientation g6 g7 := by
                    split_ifs at hg7 with hc
                    · refine foldlM_subOrientation _ ?_ _ _ _ hg7
                      intro gc e gc' hh
                      exact hone gc y e gc' hh
                    · injection hg7 with hg7; exact hg7 ▸ subOrientation_refl g6
                  have hsub : SubOrientation (addArc g x y) g7 :=
                    subOrientation_trans s2 (subOrientation_trans s3
                      (subOrientation_trans s4 (subOrientation_trans s5
                        (subOrientation_trans s6 s7))))
                  exact ⟨subOrientation_trans (subOrientation_addArc g x y) hsub,
                    hsub x y (mem_addArc_self g x y)⟩
            · rw [if_neg hS] at h
              by_cases h5 : 2 ≤ (g.adjacencyList x).card ∨
                  2 ≤ (g.reverseAdjacencyList x).card
              · rw [if_pos h5] at h; exact absurd h (by simp)
              · rw [if_neg h5] at h
                by_cases h6 : 2 ≤ (g.adjacencyList y).card ∨
                    2 ≤ (g.reverseAdjacencyList y).card
                · rw [if_pos h6] at h; exact absurd h (by simp)
                · rw [if_neg h6] at h
                  rcases hb1 : (match ((sortedList ((adj x).erase y)).find?
                      fun e => !decide (idx x e ∈ S)) with
                    | some _ => decide (y ∈ g.reverseAdjacencyList x)
                    | none => false) with _ | _
                  case neg.true =>
                    rw [hb1] at h
                    rw [if_pos rfl] at h
                    exact absurd h (by simp)
                  case neg.false =>
                    rw [hb1] at h
                    rw [if_neg (by simp)] at h
                    rcases hb2 : (match ((sortedList ((adj y).erase x)).find?
                        fun e => !decide (idx y e ∈ S)) with
                      | some _ => decide (x ∈ g.adjacencyList y)
                      | none => false) with _ | _
                    case true =>
                      rw [hb2] at h
                      rw [if_pos rfl] at h
                      exact absurd h (by simp)
                    case false =>
                      rw [hb2] at h
                      rw [if_neg (by simp)] at h
                      obtain ⟨g2, hg2, h⟩ := Option.bind_eq_some.mp h
                      obtain ⟨g3, hg3, h⟩ := Option.bind_eq_some.mp h
                      obtain ⟨g4, hg4, h⟩ := Option.bind_eq_some.mp h
                      obtain ⟨g5, hg5, h⟩ := Option.bind_eq_some.mp h
                      obtain ⟨g6, hg6, h⟩ := Option.bind_eq_some.mp h
                      obtain ⟨g7, hg7, h⟩ := Option.bind_eq_some.mp h
                      injection h with h
                      subst h
                      have s2 := hifstep _ _ _ _ _ _ hg2
                      have s3 := hifstep _ _ _ _ _ _ hg3
                      have s4 := hifstep _ _ _ _ _ _ hg4
                      have s5 := hifstep _ _ _ _ _ _ hg5
                      have s6 : SubOrientation g5 g6 := by
                        rcases hf1 : (sortedList ((adj x).erase y)).find?
                            (fun e => !decide (idx x e ∈ S)) with _ | e
                        · rw [hf1] at hg6
                          injection hg6 with hg6; exact hg6 ▸ subOrientation_refl g5
                        · rw [hf1] at hg6
                          exact hone g5 x e g6 hg6
                      have s7 : SubOrientation g6 g7 := by
                        rcases hf2 : (sortedList ((adj y).erase x)).find?
                            (fun e => !decide (idx y e ∈ S)) with _ | e
                        · rw [hf2] at hg7
                          injection hg7 with hg7; exact hg7 ▸ subOrientation_refl g6
                        · rw [hf2] at hg7
                          exact hone g6 e y g7 hg7
                      have hsub : SubOrientation (addArc g x y) g7 :=
                        subOrientation_trans s2 (subOrientation_trans s3
                          (subOrientation_trans s4 (subOrientation_trans s5
                            (subOrientation_trans s6 s7))))
                      exact ⟨subOrientation_trans (subOrientation_addArc g x y) hsub,
                        hsub x y (mem_addArc_self g x y)⟩

theorem mem_addArc_iff (g : DiGraph) (x y u v : ℕ) :
    v ∈ (addArc g x y).adjacencyList u ↔ (u = x ∧ v = y) ∨ v ∈ g.adjacencyList u := by
  simp only [addArc]
  by_cases hu : u = x
  · subst hu; simp [Finset.mem_insert]
  · simp [hu]

theorem mem_addArc_rev_iff (g : DiGraph) (x y u v : ℕ) :
    u ∈ (addArc g x y).reverseAdjacencyList v ↔
      (u = x ∧ v = y) ∨ u ∈ g.reverseAdjacencyList v := by
  simp only [addArc]
  by_cases hv : v = y
  · subst hv; simp [Finset.mem_insert]
  · simp [hv]

theorem properOrientation_empty (adj : ℕ → Finset ℕ) (n : ℕ) :
    ProperOrientation adj (emptyGraph n) := by
  refine ⟨fun u v => ?_, fun u v hv => absurd hv (Finset.not_mem_empty v),
    fun u v hv => absurd hv (Finset.not_mem_empty v)⟩
  constructor
  · exact fun hv => absurd hv (Finset.not_mem_empty v)
  · exact fun hu => absurd hu (Finset.not_mem_empty u)

theorem properOrientation_addArc {adj : ℕ → Finset ℕ} {g : DiGraph} {x y : ℕ}
    (hP : ProperOrientation adj g) (hxy : y ∈ adj x) (hirr : ∀ u, u ∉ adj u)
    (h1 : y ∉ g.adjacencyList x) (h2 : x ∉ g.adjacencyList y) :
    ProperOrientation adj (addArc g x y) := by
  obtain ⟨hwf, hon, hanti⟩ := hP
  have hne : x ≠ y := fun he => hirr x (he ▸ hxy)
  refine ⟨?_, ?_, ?_⟩
  · intro u v
    rw [mem_addArc_iff, mem_addArc_rev_iff, hwf u v]
  · intro u v hv
    rcases (mem_addArc_iff g x y u v).mp hv with ⟨rfl, rfl⟩ | hv'
    · exact hxy
    · exact hon u v hv'
  · intro u v hv hvu
    rcases (mem_addArc_iff g x y u v).mp hv with ⟨hue, hve⟩ | hv'
    · rw [hue, hve] at hvu
      rcases (mem_addArc_iff g x y y x).mp hvu with ⟨he, _⟩ | hvu'
      · exact hne he.symm
      · exact h2 hvu'
    · rcases (mem_addArc_iff g x y v u).mp hvu with ⟨hve2, hue2⟩ | hvu'
      · rw [hve2, hue2] at hv'
        exact h2 hv'
      · exact hanti u v hv' hvu'

theorem next_toNat_mem {s : Finset ℕ} (hs : s.Nonempty) :
    next s (-1) ≠ -1 ∧ (next s (-1)).toNat ∈ s := by
  obtain ⟨a, ha⟩ := hs
  have hlt : (-1 : ℤ) < (a : ℤ) := by omega
  obtain ⟨hne, _⟩ := next_of_mem ha hlt
  exact ⟨hne, (next_mem hne).1⟩

theorem foldlM_preserve (P : DiGraph → Prop) (fstep : DiGraph → ℕ → Option DiGraph) :
    ∀ (l : List ℕ),
      (∀ gc e gc', e ∈ l → fstep gc e = some gc' → P gc → P gc') →
      ∀ (gc gc' : DiGraph), List.foldlM fstep gc l = some gc' → P gc → P gc' := by
  intro l
  induction l with
  | nil =>
    intro _ gc gc' hh hP
    injection hh with hh
    exact hh ▸ hP
  | cons e l ihl =>
    intro hstep gc gc' hh hP
    rw [List.foldlM_cons] at hh
    obtain ⟨g1, hg1, hrest⟩ := Option.bind_eq_some.mp hh
    exact ihl (fun gc2 e2 gc2' he2 => hstep gc2 e2 gc2' (List.mem_cons_of_mem e he2))
      g1 gc' hrest (hstep gc e g1 (List.mem_cons_self e l) hg1 hP)

theorem canAddNewArc_preserves (adj : ℕ → Finset ℕ) (S : Finset ℕ) (idx : ℕ → ℕ → ℕ)
    (hsym : ∀ u v, v ∈ adj u → u ∈ adj v) (hirr : ∀ u, u ∉ adj u)
    (hcard : ∀ u, (adj u).Nonempty → (adj u).card = 3) :
    ∀ (fuel : ℕ) (g : DiGraph) (x y : ℕ) (g' : DiGraph),
      y ∈ adj x → ProperOrientation adj g →
      canAddNewArc adj S idx fuel g x y = some g' → ProperOrientation adj g' := by
  intro fuel
  induction fuel with
  | zero => intro g x y g' _ _ h; exact absurd h (by simp [canAddNewArc])
  | succ f ih =>
    intro g x y g' hxy hP h
    have hforceX : ∀ (gc gc' : DiGraph), ProperOrientation adj gc →
        (if (gc.adjacencyList x).card = 2 ∧ (gc.reverseAdjacencyList x).card < 1 then
          canAddNewArc adj S idx f gc
            (next ((adj x) \ gc.adjacencyList x) (-1)).toNat x
        else some gc) = some gc' → ProperOrientation adj gc' := by
      intro gc gc' hPc hh
      split_ifs at hh with hc
      · have hsub : gc.adjacencyList x ⊆ adj x := fun v hv => hPc.2.1 x v hv
        have hc1 := hc.1
        have hne : (adj x).Nonempty := by
          obtain ⟨v, hv⟩ := Finset.card_pos.mp (show 0 < (gc.adjacencyList x).card by omega)
          exact ⟨v, hsub hv⟩
        have hc3 := hcard x hne
        have hl := Finset.le_card_sdiff (gc.adjacencyList x) (adj x)
        have hsd : ((adj x) \ gc.adjacencyList x).Nonempty :=
          Finset.card_pos.mp (by omega)
        obtain ⟨_, hmem⟩ := next_toNat_mem hsd
        exact ih gc _ x gc' (hsym _ _ (Finset.mem_sdiff.mp hmem).1) hPc hh
      · injection hh with hh; exact hh ▸ hPc
    have hradjsub : ∀ (gc : DiGraph) (w : ℕ), ProperOrientation adj gc →
        gc.reverseAdjacencyList w ⊆ adj w := by
      intro gc w hPc u hu
      exact hsym u w (hPc.2.1 u w ((hPc.1 u w).mpr hu))
    have hforceY : ∀ (gc gc' : DiGraph), ProperOrientation adj gc →
        (if (gc.adjacencyList y).card = 0 ∧ (gc.reverseAdjacencyList y).card = 2 then
          canAddNewArc adj S idx f gc y
            (next ((adj y) \ gc.reverseAdjacencyList y) (-1)).toNat
        else some gc) = some gc' → ProperOrientation adj gc' := by
      intro gc gc' hPc hh
      split_ifs at hh with hc
      · have hc2 := hc.2
        have hne : (adj y).Nonempty := by
          obtain ⟨u, hu⟩ :=
            Finset.card_pos.mp (show 0 < (gc.reverseAdjacencyList y).card by omega)
          exact ⟨u, hradjsub gc y hPc hu⟩
        have hc3 := hcard y hne
        have hssub := Finset.card_le_card (hradjsub gc y hPc)
        have hl := Finset.le_card_sdiff (gc.reverseAdjacencyList y) (adj y)
        have hsd : ((adj y) \ gc.reverseAdjacencyList y).Nonempty :=
          Finset.card_pos.mp (by omega)
        obtain ⟨_, hmem⟩ := next_toNat_mem hsd
        exact ih gc y _ gc' (Finset.mem_sdiff.mp hmem).1 hPc hh
      · injection hh with hh; exact hh ▸ hPc
    rw [canAddNewArc] at h
    dsimp only at h
    by_cases h1 : y ∈ g.adjacencyList x
    · rw [if_pos h1] at h
      injection h with h
      exact h ▸ hP
    · rw [if_neg h1] at h
      by_cases h2 : x ∈ g.adjacencyList y
      · rw [if_pos h2] at h; exact absurd h (by simp)
      · rw [if_neg h2] at h
        by_cases h3 : 2 ≤ (g.adjacencyList x).card
        · rw [if_pos h3] at h; exact absurd h (by simp)
        · rw [if_neg h3] at h
          by_cases h4 : 2 ≤ (g.reverseAdjacencyList y).card
          · rw [if_pos h4] at h; exact absurd h (by simp)
          · rw [if_neg h4] at h
            have hPg1 : ProperOrientation adj (addArc g x y) :=
              properOrientation_addArc hP hxy hirr h1 h2
            by_cases hS : idx x y ∈ S
            · rw [if_pos hS] at h
              by_cases hp1 : ∃ e ∈ (adj x).erase y, idx x e ∈ S ∧ e ∈ g.adjacencyList x
              · rw [if_pos hp1] at h; exact absurd h (by simp)
              · rw [if_neg hp1] at h
                by_cases hp2 : ∃ e ∈ (adj y).erase x, idx y e ∈ S ∧
                    e ∈ g.reverseAdjacencyList y
                · rw [if_pos hp2] at h; exact absurd h (by simp)
                · rw [if_neg hp2] at h
                  obtain ⟨g2, hg2, h⟩ := Option.bind_eq_some.mp h
                  obtain ⟨g3, hg3, h⟩ := Option.bind_eq_some.mp h
                  obtain ⟨g4, hg4, h⟩ := Option.bind_eq_some.mp h
                  obtain ⟨g5, hg5, h⟩ := Option.bind_eq_some.mp h
                  obtain ⟨g6, hg6, h⟩ := Option.bind_eq_some.mp h
                  obtain ⟨g7, hg7, h⟩ := Option.bind_eq_some.mp h
                  injection h with h
                  subst h
                  have hP2 := hforceX _ _ hPg1 hg2
                  have hP3 := hforceY _ _ hP2 hg3
                  have hP4 : ProperOrientation adj g4 := by
                    refine foldlM_preserve (ProperOrientation adj) _ _ ?_ _ _ hg4 hP3
                    intro gc e gc' hel hh hPc
                    split_ifs at hh with hc
                    · have he : e ∈ adj x :=
                        Finset.mem_of_mem_erase (mem_sortedList.mp hel)
                      exact ih gc e x gc' (hsym x e he) hPc hh
                    · injection hh with hh; exact hh ▸ hPc
                  have hP5 : ProperOrientation adj g5 := by
                    refine foldlM_preserve (ProperOrientation adj) _ _ ?_ _ _ hg5 hP4
                    intro gc e gc' hel hh hPc
                    split_ifs at hh with hc
                    · have he : e ∈ adj y :=
                        Finset.mem_of_mem_erase (mem_sortedList.mp hel)
                      exact ih gc y e gc' he hPc hh
                    · injection hh with hh; exact hh ▸ hPc
                  have hP6 : ProperOrientation adj g6 := by
                    split_ifs at hg6 with hc
                    · refine foldlM_preserve (ProperOrientation adj) _ _ ?_ _ _ hg6 hP5
                      intro gc e gc' hel hh hPc
                      have he : e ∈ adj x :=
                        Finset.mem_of_mem_erase (mem_sortedList.mp hel)
                      exact ih gc e x gc' (hsym x e he) hPc hh
                    · injection hg6 with hg6; exact hg6 ▸ hP5
                  have hP7 : ProperOrientation adj g7 := by
                    split_ifs at hg7 with hc
                    · refine foldlM_preserve (ProperOrientation adj) _ _ ?_ _ _ hg7 hP6
                      intro gc e gc' hel hh hPc
                      have he : e ∈ adj y :=
                        Finset.mem_of_mem_erase (mem_sortedList.mp hel)
                      exact ih gc y e gc' he hPc hh
                    · injection hg7 with hg7; exact hg7 ▸ hP6
                  exact hP7
            · rw [if_neg hS] at h
              by_cases h5 : 2 ≤ (g.adjacencyList x).card ∨
                  2 ≤ (g.reverseAdjacencyList x).card
              · rw [if_pos h5] at h; exact absurd h (by simp)
              · rw [if_neg h5] at h
                by_cases h6 : 2 ≤ (g.adjacencyList y).card ∨
                    2 ≤ (g.reverseAdjacencyList y).card
                · rw [if_pos h6] at h; exact absurd h (by simp)
                · rw [if_neg h6] at h
                  rcases hb1 : (match ((sortedList ((adj x).erase y)).find?
                      fun e => !decide (idx x e ∈ S)) with
                    | some _ => decide (y ∈ g.reverseAdjacencyList x)
                    | none => false) with _ | _
                  case neg.true =>
                    rw [hb1] at h
                    rw [if_pos rfl] at h
                    exact absurd h (by simp)
                  case neg.false =>
                    rw [hb1] at h
                    rw [if_neg (by simp)] at h
                    rcases hb2 : (match ((sortedList ((adj y).erase x)).find?
                        fun e => !decide (idx y e ∈ S)) with
                      | some _ => decide (x ∈ g.adjacencyList y)
                      | none => false) with _ | _
                    case true =>
                      rw [hb2] at h
                      rw [if_pos rfl] at h
                      exact absurd h (by simp)
                    case false =>
                      rw [hb2] at h
                      rw [if_neg (by simp)] at h
                      obtain ⟨g2, hg2, h⟩ := Option.bind_eq_some.mp h
                      obtain ⟨g3, hg3, h⟩ := Option.bind_eq_some.mp h
                      obtain ⟨g4, hg4, h⟩ := Option.bind_eq_some.mp h
                      obtain ⟨g5, hg5, h⟩ := Option.bind_eq_some.mp h
                      obtain ⟨g6, hg6, h⟩ := Option.bind_eq_some.mp h
                      obtain ⟨g7, hg7, h⟩ := Option.bind_eq_some.mp h
                      injection h with h
                      subst h
                      have hP2 := hforceX _ _ hPg1 hg2
                      have hP3 := hforceY _ _ hP2 hg3
                      have hP4 : ProperOrientation adj g4 := by
                        split_ifs at hg4 with hc
                        · have hc1 := hc.1
                          have hc2 := hc.2
                          have hne : (adj y).Nonempty := by
                            obtain ⟨u, hu⟩ := Finset.card_pos.mp
                              (show 0 < (g3.reverseAdjacencyList y).card by omega)
                            exact ⟨u, hradjsub g3 y hP3 hu⟩
                          have hc3 := hcard y hne
                          have hl := Finset.le_card_sdiff (g3.adjacencyList y) (adj y)
                          have hsd : ((adj y) \ g3.adjacencyList y).Nonempty :=
                            Finset.card_pos.mp (by omega)
                          obtain ⟨_, hmem⟩ := next_toNat_mem hsd
                          exact ih g3 y _ g4 (Finset.mem_sdiff.mp hmem).1 hP3 hg4
                        · injection hg4 with hg4; exact hg4 ▸ hP3
                      have hP5 : ProperOrientation adj g5 := by
                        split_ifs at hg5 with hc
                        · have hc1 := hc.1
                          have hsub : g4.adjacencyList y ⊆ adj y :=
                            fun v hv => hP4.2.1 y v hv
                          have hne : (adj y).Nonempty := by
                            obtain ⟨v, hv⟩ := Finset.card_pos.mp
                              (show 0 < (g4.adjacencyList y).card by omega)
                            exact ⟨v, hsub hv⟩
                          have hc3 := hcard y hne
                          have hun := Finset.card_union_le (g4.adjacencyList y)
                            (g4.reverseAdjacencyList y)
                          have hc2 := hc.2
                          have hl := Finset.le_card_sdiff
                            (g4.adjacencyList y ∪ g4.reverseAdjacencyList y) (adj y)
                          have hsd : ((adj y) \
                              (g4.adjacencyList y ∪ g4.reverseAdjacencyList y)).Nonempty :=
                            Finset.card_pos.mp (by omega)
                          obtain ⟨_, hmem⟩ := next_toNat_mem hsd
                          have hmem' : (next ((adj y) \
                              (g4.adjacencyList y ∪ g4.reverseAdjacencyList y))
                              (-1)).toNat ∈ adj y := (Finset.mem_sdiff.mp hmem).1
                          exact ih g4 _ y g5 (hsym y _ hmem') hP4 hg5
                        · injection hg5 with hg5; exact hg5 ▸ hP4
                      have hP6 : ProperOrientation adj g6 := by
                        rcases hf1 : (sortedList ((adj x).erase y)).find?
                            (fun e => !decide (idx x e ∈ S)) with _ | e
                        · rw [hf1] at hg6
                          injection hg6 with hg6; exact hg6 ▸ hP5
                        · rw [hf1] at hg6
                          have he : e ∈ adj x := Finset.mem_of_mem_erase
                            (mem_sortedList.mp (List.mem_of_find?_eq_some hf1))
                          exact ih g5 x e g6 he hP5 hg6
                      have hP7 : ProperOrientation adj g7 := by
                        rcases hf2 : (sortedList ((adj y).erase x)).find?
                            (fun e => !decide (idx y e ∈ S)) with _ | e
                        · rw [hf2] at hg7
                          injection hg7 with hg7; exact hg7 ▸ hP6
                        · rw [hf2] at hg7
                          have he : e ∈ adj y := Finset.mem_of_mem_erase
                            (mem_sortedList.mp (List.mem_of_find?_eq_some hf2))
                          exact ih g6 e y g7 (hsym y e he) hP6 hg7
                      exact hP7

theorem canCompleteCompOrientation_sound (adj : ℕ → Finset ℕ) (n : ℕ)
    (S : Finset ℕ) (idx : ℕ → ℕ → ℕ) (afuel : ℕ) :
    ∀ (cfuel : ℕ) (g : DiGraph) (e1 e2 : ℤ),
      (canCompleteCompOrientation adj n S idx afuel cfuel g e1 e2).1 = true →
      ∃ D', SubOrientation g D' ∧
        S ∪ getDeletableEdges D' n idx = fullSet (3 * n / 2) := by
  intro cfuel
  induction cfuel with
  | zero => intro g e1 e2 h; simp [canCompleteCompOrientation] at h
  | succ f ih =>
    intro g e1 e2 h
    rw [canCompleteCompOrientation] at h
    by_cases hb1 : e2 = -1 ∧ e1 < (n : ℤ) - 1
    · rw [if_pos hb1] at h
      exact ih _ _ _ h
    · rw [if_neg hb1] at h
      by_cases hb2 : e2 = -1 ∧ e1 = (n : ℤ) - 1
      · rw [if_pos hb2] at h
        exact ⟨g, subOrientation_refl g, of_decide_eq_true h⟩
      · rw [if_neg hb2] at h
        by_cases hb3 : e2.toNat ∈ g.adjacencyList e1.toNat ∨
            e1.toNat ∈ g.adjacencyList e2.toNat
        · rw [if_pos hb3] at h
          exact ih _ _ _ h
        · rw [if_neg hb3] at h
          dsimp only at h
          rcases ha1 : canAddNewArc adj S idx afuel g e1.toNat e2.toNat with _ | g1 <;>
            rw [ha1] at h
          · -- first direction rejected immediately
            rw [if_neg (by simp)] at h
            rcases ha2 : canAddNewArc adj S idx afuel g e2.toNat e1.toNat with _ | g2 <;>
              rw [ha2] at h
            · simp at h
            · obtain ⟨D', hsub, hcov⟩ := ih _ _ _ (by simpa using h)
              exact ⟨D', subOrientation_trans
                (canAddNewArc_spec adj S idx afuel g e2.toNat e1.toNat g2 ha2).1 hsub,
                hcov⟩
          · by_cases hr1 : (canCompleteCompOrientation adj n S idx afuel f g1 e1
                (next (adj e1.toNat) e2)).1 = true
            · rw [if_pos hr1] at h
              obtain ⟨D', hsub, hcov⟩ := ih _ _ _ hr1
              exact ⟨D', subOrientation_trans
                (canAddNewArc_spec adj S idx afuel g e1.toNat e2.toNat g1 ha1).1 hsub,
                hcov⟩
            · rw [if_neg hr1] at h
              rcases ha2 : canAddNewArc adj S idx afuel g e2.toNat e1.toNat with _ | g2 <;>
                rw [ha2] at h
              · simp at h
              · obtain ⟨D', hsub, hcov⟩ := ih _ _ _ (by simpa using h)
                exact ⟨D', subOrientation_trans
                  (canAddNewArc_spec adj S idx afuel g e2.toNat e1.toNat g2 ha2).1 hsub,
                  hcov⟩

theorem hasComplementaryOrientation_sound (adj : ℕ → Finset ℕ) (n : ℕ)
    (S : Finset ℕ) (idx : ℕ → ℕ → ℕ) (afuel cfuel : ℕ)
    (h : hasComplementaryOrientation adj n S idx afuel cfuel = true) :
    ∃ D', (next (adj 0) (-1)).toNat ∈ D'.adjacencyList 0 ∧
      S ∪ getDeletableEdges D' n idx = fullSet (3 * n / 2) := by
  unfold hasComplementaryOrientation at h
  rcases ha : canAddNewArc adj S idx afuel (emptyGraph n) 0
      (next (adj 0) (-1)).toNat with _ | g1 <;> rw [ha] at h
  · simp at h
  · obtain ⟨D', hsub, hcov⟩ :=
      canCompleteCompOrientation_sound adj n S idx afuel cfuel g1 0 (next (adj 0) (-1)) h
    obtain ⟨_, hmem⟩ :=
      canAddNewArc_spec adj S idx afuel (emptyGraph n) 0 (next (adj 0) (-1)).toNat g1 ha
    exact ⟨D', hsub 0 (next (adj 0) (-1)).toNat hmem, hcov⟩

theorem canCompleteCompOrientation_proper (adj : ℕ → Finset ℕ) (n : ℕ)
    (S : Finset ℕ) (idx : ℕ → ℕ → ℕ) (afuel : ℕ)
    (hsym : ∀ u v, v ∈ adj u → u ∈ adj v) (hirr : ∀ u, u ∉ adj u)
    (hcard : ∀ u, (adj u).Nonempty → (adj u).card = 3) :
    ∀ (cfuel : ℕ) (g : DiGraph) (e1 e2 : ℤ),
      ProperOrientation adj g →
      -1 ≤ e1 → e1 ≤ (n : ℤ) - 1 →
      (e2 ≠ -1 → 0 ≤ e1 ∧ e2.toNat ∈ adj e1.toNat ∧ e1 < e2) →
      (canCompleteCompOrientation adj n S idx afuel cfuel g e1 e2).1 = true →
      ∃ D', ProperOrientation adj D' ∧ SubOrientation g D' ∧
        S ∪ getDeletableEdges D' n idx = fullSet (3 * n / 2) := by
  intro cfuel
  induction cfuel with
  | zero => intro g e1 e2 _ _ _ _ h; simp [canCompleteCompOrientation] at h
  | succ f ih =>
    intro g e1 e2 hP hlb hub he2 h
    rw [canCompleteCompOrientation] at h
    by_cases hb1 : e2 = -1 ∧ e1 < (n : ℤ) - 1
    · rw [if_pos hb1] at h
      refine ih _ _ _ hP (by omega) (by omega) ?_ h
      intro hne
      exact ⟨by omega, (next_mem hne).1, (next_mem hne).2⟩
    · rw [if_neg hb1] at h
      by_cases hb2 : e2 = -1 ∧ e1 = (n : ℤ) - 1
      · rw [if_pos hb2] at h
        exact ⟨g, hP, subOrientation_refl g, of_decide_eq_true h⟩
      · rw [if_neg hb2] at h
        have he2ne : e2 ≠ -1 := by
          intro he
          rcases lt_or_eq_of_le hub with hlt | heq
          · exact hb1 ⟨he, hlt⟩
          · exact hb2 ⟨he, heq⟩
        obtain ⟨he1nn, hmem, hlt⟩ := he2 he2ne
        have hnext : next (adj e1.toNat) e2 ≠ -1 →
            0 ≤ e1 ∧ (next (adj e1.toNat) e2).toNat ∈ adj e1.toNat ∧
              e1 < next (adj e1.toNat) e2 := by
          intro hne
          refine ⟨he1nn, (next_mem hne).1, ?_⟩
          have := (next_mem hne).2
          omega
        by_cases hb3 : e2.toNat ∈ g.adjacencyList e1.toNat ∨
            e1.toNat ∈ g.adjacencyList e2.toNat
        · rw [if_pos hb3] at h
          exact ih _ _ _ hP hlb hub hnext h
        · rw [if_neg hb3] at h
          dsimp only at h
          rcases ha1 : canAddNewArc adj S idx afuel g e1.toNat e2.toNat with _ | g1 <;>
            rw [ha1] at h
          · rw [if_neg (by simp)] at h
            rcases ha2 : canAddNewArc adj S idx afuel g e2.toNat e1.toNat with _ | g2 <;>
              rw [ha2] at h
            · simp at h
            · have hP2 : ProperOrientation adj g2 :=
                canAddNewArc_preserves adj S idx hsym hirr hcard afuel g e2.toNat
                  e1.toNat g2 (hsym _ _ hmem) hP ha2
              obtain ⟨D', hPD, hsub, hcov⟩ := ih _ _ _ hP2 hlb hub hnext (by simpa using h)
              exact ⟨D', hPD, subOrientation_trans
                (canAddNewArc_spec adj S idx afuel g e2.toNat e1.toNat g2 ha2).1 hsub,
                hcov⟩
          · have hP1 : ProperOrientation adj g1 :=
              canAddNewArc_preserves adj S idx hsym hirr hcard afuel g e1.toNat
                e2.toNat g1 hmem hP ha1
            by_cases hr1 : (canCompleteCompOrientation adj n S idx afuel f g1 e1
                (next (adj e1.toNat) e2)).1 = true
            · rw [if_pos hr1] at h
              obtain ⟨D', hPD, hsub, hcov⟩ := ih _ _ _ hP1 hlb hub hnext hr1
              exact ⟨D', hPD, subOrientation_trans
                (canAddNewArc_spec adj S idx afuel g e1.toNat e2.toNat g1 ha1).1 hsub,
                hcov⟩
            · rw [if_neg hr1] at h
              rcases ha2 : canAddNewArc adj S idx afuel g e2.toNat e1.toNat with _ | g2 <;>
                rw [ha2] at h
              · simp at h
              · have hP2 : ProperOrientation adj g2 :=
                  canAddNewArc_preserves adj S idx hsym hirr hcard afuel g e2.toNat
                    e1.toNat g2 (hsym _ _ hmem) hP ha2
                obtain ⟨D', hPD, hsub, hcov⟩ :=
                  ih _ _ _ hP2 hlb hub hnext (by simpa using h)
                exact ⟨D', hPD, subOrientation_trans
                  (canAddNewArc_spec adj S idx afuel g e2.toNat e1.toNat g2 ha2).1 hsub,
                  hcov⟩

theorem hasComplementaryOrientation_proper (adj : ℕ → Finset ℕ) (n : ℕ)
    (S : Finset ℕ) (idx : ℕ → ℕ → ℕ) (afuel cfuel : ℕ)
    (hG : CubicGraph adj n) (hn : 1 ≤ n)
    (h : hasComplementaryOrientation adj n S idx afuel cfuel = true) :
    ∃ D', ProperOrientation adj D' ∧
      (next (adj 0) (-1)).toNat ∈ D'.adjacencyList 0 ∧
      S ∪ getDeletableEdges D' n idx = fullSet (3 * n / 2) := by
  have hsym := hG.1
  have hirr := hG.2.1
  have hbound := hG.2.2.1
  have hdeg := hG.2.2.2
  have hcard : ∀ u, (adj u).Nonempty → (adj u).card = 3 := by
    intro u hu
    obtain ⟨v, hv⟩ := hu
    exact hdeg u (hbound u v hv).1
  have hadj0 : (adj 0).Nonempty := by
    have h3 := hdeg 0 (by omega)
    exact Finset.card_pos.mp (by omega)
  obtain ⟨hne0, hmem0⟩ := next_toNat_mem hadj0
  unfold hasComplementaryOrientation at h
  rcases ha : canAddNewArc adj S idx afuel (emptyGraph n) 0 (next (adj 0) (-1)).toNat
      with _ | g1 <;> rw [ha] at h
  · simp at h
  · have hP1 : ProperOrientation adj g1 :=
      canAddNewArc_preserves adj S idx hsym hirr hcard afuel (emptyGraph n) 0 _ g1
        hmem0 (properOrientation_empty adj n) ha
    have harc1 : (next (adj 0) (-1)).toNat ∈ g1.adjacencyList 0 :=
      (canAddNewArc_spec adj S idx afuel (emptyGraph n) 0 _ g1 ha).2
    have hlt0 : 0 < next (adj 0) (-1) := by
      have h1 := next_mem hne0
      have h2 : (next (adj 0) (-1)).toNat ≠ 0 := by
        intro he
        have h3 := h1.1
        rw [he] at h3
        exact hirr 0 h3
      omega
    obtain ⟨D', hPD, hsubD, hcovD⟩ :=
      canCompleteCompOrientation_proper adj n S idx afuel hsym hirr hcard cfuel g1 0
        (next (adj 0) (-1)) hP1 (by norm_num) (by omega)
        (fun _ => ⟨le_refl 0, (next_mem hne0).1, hlt0⟩) h
    exact ⟨D', hPD, hsubD 0 _ harc1, hcovD⟩

theorem gifnGo_early2 (T all : Finset ℕ) :
    ∀ (pool : List (Finset ℕ)) (es : Bool),
      (gifnGo T all es pool).1 = GifnOut.early2 →
      T = all ∨ ∃ A ∈ pool, A ≠ ∅ ∧ T ∪ A = all := by
  intro pool
  induction pool with
  | nil => intro es h; simp [gifnGo] at h
  | cons A rest ih =>
    intro es h
    by_cases hA : A ≠ ∅
    · by_cases hTA : T ⊆ A
      · rw [show gifnGo T all es (A :: rest) = (GifnOut.early0, A :: rest) by
          simp [gifnGo, hA, hTA]] at h
        simp at h
      · by_cases hAT : A ⊆ T
        · have e1 : (if A ⊆ T then (∅ : Finset ℕ) else A) = ∅ := if_pos hAT
          by_cases hU : T = all
          · exact Or.inl hU
          · rw [show gifnGo T all es (A :: rest) =
                ((gifnGo T all es rest).1, ∅ :: (gifnGo T all es rest).2) by
              simp only [gifnGo, e1, Finset.union_empty]
              rw [if_pos hA, if_neg hTA, if_neg hU]] at h
            rcases ih es h with h2 | ⟨B, hB, hBne, hBU⟩
            · exact Or.inl h2
            · exact Or.inr ⟨B, List.mem_cons_of_mem _ hB, hBne, hBU⟩
        · by_cases hU : T ∪ A = all
          · refine Or.inr ⟨A, List.mem_cons_self _ _, hA, hU⟩
          · rw [show gifnGo T all es (A :: rest) =
                ((gifnGo T all es rest).1, A :: (gifnGo T all es rest).2) by
              simp [gifnGo, hA, hTA, hAT, hU]] at h
            rcases ih es h with h2 | ⟨B, hB, hBne, hBU⟩
            · exact Or.inl h2
            · exact Or.inr ⟨B, List.mem_cons_of_mem _ hB, hBne, hBU⟩
    · rw [not_not] at hA
      subst hA
      by_cases hsf : es = false ∧ (gifnGo T all true rest).1 = GifnOut.fellthrough
      · rw [show gifnGo T all es ((∅ : Finset ℕ) :: rest) =
            (GifnOut.stored, T :: (gifnGo T all true rest).2) by
          simp [gifnGo, hsf.1, hsf.2]] at h
        simp at h
      · rw [show gifnGo T all es ((∅ : Finset ℕ) :: rest) =
            ((gifnGo T all true rest).1, (∅ : Finset ℕ) :: (gifnGo T all true rest).2) by
          rcases Bool.eq_false_or_eq_true es with hes | hes
          · simp [gifnGo, hes]
          · have hnf : (gifnGo T all true rest).1 ≠ GifnOut.fellthrough := by
              intro hcon; exact hsf ⟨hes, hcon⟩
            simp [gifnGo, hes, hnf]] at h
        rcases ih true h with h2 | ⟨B, hB, hBne, hBU⟩
        · exact Or.inl h2
        · exact Or.inr ⟨B, List.mem_cons_of_mem _ hB, hBne, hBU⟩

theorem getIntermediateFrankNumber_two {n : ℕ} {pool : List (Finset ℕ)}
    {T : Finset ℕ} (h : (getIntermediateFrankNumber n pool T).1 = 2) :
    T = fullSet (3 * n / 2) ∨
      ∃ A ∈ pool, A ≠ ∅ ∧ T ∪ A = fullSet (3 * n / 2) := by
  unfold getIntermediateFrankNumber at h
  rcases hgg : gifnGo T (fullSet (3 * n / 2)) false pool with ⟨out, l⟩
  rw [hgg] at h
  have h2 := gifnGo_early2 T (fullSet (3 * n / 2)) pool false
  rw [hgg] at h2
  cases out with
  | early0 => exact absurd (show (0 : ℤ) = 2 from h) (by norm_num)
  | early2 => exact h2 rfl
  | stored => exact absurd (show (0 : ℤ) = 2 from h) (by norm_num)
  | fellthrough => exact absurd (show (0 : ℤ) = 2 from h) (by norm_num)

theorem getIntermediateFrankNumber_result (n : ℕ) (pool : List (Finset ℕ))
    (T : Finset ℕ) :
    (getIntermediateFrankNumber n pool T).1 = 0 ∨
      (getIntermediateFrankNumber n pool T).1 = 2 := by
  unfold getIntermediateFrankNumber
  rcases gifnGo T (fullSet (3 * n / 2)) false pool with ⟨out, l⟩
  cases out <;> simp

theorem getIntermediateFrankNumber_shape {n : ℕ} {pool : List (Finset ℕ)}
    {T : Finset ℕ} :
    ∀ B ∈ (getIntermediateFrankNumber n pool T).2, B ∈ pool ∨ B = ∅ ∨ B = T := by
  have hShape := (gifnGo_spec T (fullSet (3 * n / 2)) pool false).1
  unfold getIntermediateFrankNumber
  rcases hgg : gifnGo T (fullSet (3 * n / 2)) false pool with ⟨out, l⟩
  rw [hgg] at hShape
  intro B hB
  cases out <;> simp only [] at hB
  case early0 => exact hShape B hB
  case stored => exact hShape B hB
  case early2 =>
    rcases List.mem_append.mp hB with hB | hB
    · exact hShape B hB
    · exact Or.inr (Or.inr (List.mem_singleton.mp hB))
  case fellthrough =>
    rcases List.mem_append.mp hB with hB | hB
    · exact hShape B hB
    · exact Or.inr (Or.inr (List.mem_singleton.mp hB))

theorem generateAllOrientations_spec (adj : ℕ → Finset ℕ) (opts : Options) (n : ℕ)
    (idx : ℕ → ℕ → ℕ) (afuel cfuel : ℕ) :
    ∀ (gfuel total : ℕ) (pool : List (Finset ℕ)) (g : DiGraph) (e1 e2 : ℤ),
      PoolInv n idx pool →
      (((generateAllOrientations adj opts n idx afuel cfuel gfuel total pool g
          e1 e2).frankNumber = 2 →
        ∃ D1 D2, getDeletableEdges D1 n idx ∪ getDeletableEdges D2 n idx =
          fullSet (3 * n / 2)) ∧
       PoolInv n idx (generateAllOrientations adj opts n idx afuel cfuel gfuel total
          pool g e1 e2).pool ∧
       ((generateAllOrientations adj opts n idx afuel cfuel gfuel total pool g
          e1 e2).frankNumber = 0 ∨
        (generateAllOrientations adj opts n idx afuel cfuel gfuel total pool g
          e1 e2).frankNumber = 2)) := by
  intro gfuel
  induction gfuel with
  | zero =>
    intro total pool g e1 e2 hinv
    rw [generateAllOrientations]
    exact ⟨fun h => absurd h (by norm_num), hinv, Or.inl rfl⟩
  | succ f ihf =>
    intro total pool g e1 e2 hinv
    rw [generateAllOrientations]
    by_cases hb1 : e2 = -1 ∧ e1 < (n : ℤ) - 1
    · rw [if_pos hb1]
      exact ihf total pool g _ _ hinv
    · rw [if_neg hb1]
      by_cases hb2 : e2 = -1 ∧ e1 = (n : ℤ) - 1
      · rw [if_pos hb2]
        by_cases hskip : opts.singleGraphFlag ∧
            ((total + 1 : ℕ) : ℤ) % opts.modulo ≠ opts.remainder
        · rw [if_pos hskip]
          exact ⟨fun h => absurd h (by norm_num), hinv, Or.inl rfl⟩
        · rw [if_neg hskip]
          by_cases hstr : ¬ isStronglyConnected g
          · rw [if_pos hstr]
            exact ⟨fun h => absurd h (by norm_num), hinv, Or.inl rfl⟩
          · rw [if_neg hstr]
            by_cases hloc : ∃ i ∈ Finset.range n, ∀ nbr ∈ adj i,
                idx i nbr ∉ getDeletableEdges g n idx
            · rw [if_pos hloc]
              exact ⟨fun h => absurd h (by norm_num), hinv, Or.inl rfl⟩
            · rw [if_neg hloc]
              by_cases hbf : ¬ opts.bruteForceFlag
              · rw [if_pos hbf]
                by_cases hcomp : hasComplementaryOrientation adj n
                    (getDeletableEdges g n idx) idx afuel cfuel
                · rw [if_pos hcomp]
                  refine ⟨fun _ => ?_, hinv, Or.inr rfl⟩
                  obtain ⟨D', _, hcov⟩ :=
                    hasComplementaryOrientation_sound adj n _ idx afuel cfuel hcomp
                  exact ⟨g, D', hcov⟩
                · rw [if_neg hcomp]
                  exact ⟨fun h => absurd h (by norm_num), hinv, Or.inl rfl⟩
              · rw [if_neg hbf]
                refine ⟨fun h => ?_, ?_, ?_⟩
                · rcases getIntermediateFrankNumber_two h with hfull | ⟨A, hApool, hAne, hAU⟩
                  · exact ⟨g, g, by rw [Finset.union_self]; exact hfull⟩
                  · rcases hinv A hApool with rfl | ⟨D2, rfl⟩
                    · exact absurd rfl hAne
                    · exact ⟨g, D2, hAU⟩
                · intro B hB
                  rcases getIntermediateFrankNumber_shape B hB with hBp | hBe | hBT
                  · exact hinv B hBp
                  · exact Or.inl hBe
                  · exact Or.inr ⟨g, hBT⟩
                · exact getIntermediateFrankNumber_result n pool (getDeletableEdges g n idx)
      · rw [if_neg hb2]
        obtain ⟨ih1two, ih1inv, ih1range⟩ :
            ((if ((addArc g e1.toNat e2.toNat).adjacencyList e1.toNat).card ≠ 3 ∧
                ((addArc g e1.toNat e2.toNat).reverseAdjacencyList e2.toNat).card ≠ 3 then
              generateAllOrientations adj opts n idx afuel cfuel f total pool
                (addArc g e1.toNat e2.toNat) e1 (next (adj e1.toNat) e2)
            else ⟨0, total, pool, []⟩).frankNumber = 2 →
              ∃ D1 D2, getDeletableEdges D1 n idx ∪ getDeletableEdges D2 n idx =
                fullSet (3 * n / 2)) ∧
            PoolInv n idx (if ((addArc g e1.toNat e2.toNat).adjacencyList e1.toNat).card ≠ 3 ∧
                ((addArc g e1.toNat e2.toNat).reverseAdjacencyList e2.toNat).card ≠ 3 then
              generateAllOrientations adj opts n idx afuel cfuel f total pool
                (addArc g e1.toNat e2.toNat) e1 (next (adj e1.toNat) e2)
            else ⟨0, total, pool, []⟩).pool ∧
            ((if ((addArc g e1.toNat e2.toNat).adjacencyList e1.toNat).card ≠ 3 ∧
                ((addArc g e1.toNat e2.toNat).reverseAdjacencyList e2.toNat).card ≠ 3 then
              generateAllOrientations adj opts n idx afuel cfuel f total pool
                (addArc g e1.toNat e2.toNat) e1 (next (adj e1.toNat) e2)
            else ⟨0, total, pool, []⟩).frankNumber = 0 ∨
             (if ((addArc g e1.toNat e2.toNat).adjacencyList e1.toNat).card ≠ 3 ∧
                ((addArc g e1.toNat e2.toNat).reverseAdjacencyList e2.toNat).card ≠ 3 then
              generateAllOrientations adj opts n idx afuel cfuel f total pool
                (addArc g e1.toNat e2.toNat) e1 (next (adj e1.toNat) e2)
            else ⟨0, total, pool, []⟩).frankNumber = 2) := by
          split_ifs with hc
          · exact ihf total pool _ _ _ hinv
          · exact ⟨fun h => absurd h (by norm_num), hinv, Or.inl rfl⟩
        set r1 := if ((addArc g e1.toNat e2.toNat).adjacencyList e1.toNat).card ≠ 3 ∧
            ((addArc g e1.toNat e2.toNat).reverseAdjacencyList e2.toNat).card ≠ 3 then
          generateAllOrientations adj opts n idx afuel cfuel f total pool
            (addArc g e1.toNat e2.toNat) e1 (next (adj e1.toNat) e2)
          else ⟨0, total, pool, []⟩ with hr1def
        by_cases hret : r1.frankNumber ≠ 0
        · rw [if_pos hret]
          exact ⟨ih1two, ih1inv, ih1range⟩
        · rw [if_neg hret]
          obtain ⟨ih2two, ih2inv, ih2range⟩ :
              ((if ((addArc g e2.toNat e1.toNat).reverseAdjacencyList e1.toNat).card ≠ 3 ∧
                  ((addArc g e2.toNat e1.toNat).adjacencyList e2.toNat).card ≠ 3 then
                generateAllOrientations adj opts n idx afuel cfuel f
                  r1.totalOrientationsGenerated r1.pool
                  (addArc g e2.toNat e1.toNat) e1 (next (adj e1.toNat) e2)
              else ⟨0, r1.totalOrientationsGenerated, r1.pool, []⟩).frankNumber = 2 →
                ∃ D1 D2, getDeletableEdges D1 n idx ∪ getDeletableEdges D2 n idx =
                  fullSet (3 * n / 2)) ∧
              PoolInv n idx (if ((addArc g e2.toNat e1.toNat).reverseAdjacencyList
                  e1.toNat).card ≠ 3 ∧
                  ((addArc g e2.toNat e1.toNat).adjacencyList e2.toNat).card ≠ 3 then
                generateAllOrientations adj opts n idx afuel cfuel f
                  r1.totalOrientationsGenerated r1.pool
                  (addArc g e2.toNat e1.toNat) e1 (next (adj e1.toNat) e2)
              else ⟨0, r1.totalOrientationsGenerated, r1.pool, []⟩).pool ∧
              ((if ((addArc g e2.toNat e1.toNat).reverseAdjacencyList e1.toNat).card ≠ 3 ∧
                  ((addArc g e2.toNat e1.toNat).adjacencyList e2.toNat).card ≠ 3 then
                generateAllOrientations adj opts n idx afuel cfuel f
                  r1.totalOrientationsGenerated r1.pool
                  (addArc g e2.toNat e1.toNat) e1 (next (adj e1.toNat) e2)
              else ⟨0, r1.totalOrientationsGenerated, r1.pool, []⟩).frankNumber = 0 ∨
               (if ((addArc g e2.toNat e1.toNat).reverseAdjacencyList e1.toNat).card ≠ 3 ∧
                  ((addArc g e2.toNat e1.toNat).adjacencyList e2.toNat).card ≠ 3 then
                generateAllOrientations adj opts n idx afuel cfuel f
                  r1.totalOrientationsGenerated r1.pool
                  (addArc g e2.toNat e1.toNat) e1 (next (adj e1.toNat) e2)
              else ⟨0, r1.totalOrientationsGenerated, r1.pool, []⟩).frankNumber = 2) := by
            split_ifs with hc
            · exact ihf r1.totalOrientationsGenerated r1.pool _ _ _ ih1inv
            · exact ⟨fun h => absurd h (by norm_num), ih1inv, Or.inl rfl⟩
          exact ⟨ih2two, ih2inv, ih2range⟩

theorem generateAllOrientations_proper (adj : ℕ → Finset ℕ) (opts : Options)
    (n : ℕ) (idx : ℕ → ℕ → ℕ) (afuel cfuel : ℕ)
    (hG : CubicGraph adj n) (hn : 1 ≤ n) :
    ∀ (gfuel total : ℕ) (pool : List (Finset ℕ)) (g : DiGraph) (e1 e2 : ℤ),
      PoolOrient adj n idx pool →
      ProperOrientation adj g →
      -1 ≤ e1 → e1 ≤ (n : ℤ) - 1 →
      (e2 ≠ -1 → 0 ≤ e1 ∧ e2.toNat ∈ adj e1.toNat ∧ e1 < e2) →
      (∀ u v, v ∈ g.adjacencyList u →
        ((min u v : ℕ) : ℤ) < e1 ∨
          (((min u v : ℕ) : ℤ) = e1 ∧ e1 < ((max u v : ℕ) : ℤ) ∧
            (((max u v : ℕ) : ℤ) < e2 ∨ e2 = -1))) →
      (((generateAllOrientations adj opts n idx afuel cfuel gfuel total pool g
          e1 e2).frankNumber = 2 →
        ∃ D1 D2, ProperOrientation adj D1 ∧ ProperOrientation adj D2 ∧
          isStronglyConnected D1 = true ∧
          getDeletableEdges D1 n idx ∪ getDeletableEdges D2 n idx =
            fullSet (3 * n / 2)) ∧
       PoolOrient adj n idx (generateAllOrientations adj opts n idx afuel cfuel
         gfuel total pool g e1 e2).pool) := by
  have hsym := hG.1
  have hirr := hG.2.1
  intro gfuel
  induction gfuel with
  | zero =>
    intro total pool g e1 e2 hpool _ _ _ _ _
    rw [generateAllOrientations]
    exact ⟨fun h => absurd h (by norm_num), hpool⟩
  | succ f ihf =>
    intro total pool g e1 e2 hpool hP hlb hub he2 harc
    rw [generateAllOrientations]
    by_cases hb1 : e2 = -1 ∧ e1 < (n : ℤ) - 1
    · rw [if_pos hb1]
      refine ihf total pool g _ _ hpool hP (by omega) (by omega) ?_ ?_
      · intro hne
        exact ⟨by omega, (next_mem hne).1, (next_mem hne).2⟩
      · intro u v hv
        rcases harc u v hv with h | ⟨h1, _, _⟩
        · exact Or.inl (by omega)
        · exact Or.inl (by omega)
    · rw [if_neg hb1]
      by_cases hb2 : e2 = -1 ∧ e1 = (n : ℤ) - 1
      · rw [if_pos hb2]
        by_cases hskip : opts.singleGraphFlag ∧
            ((total + 1 : ℕ) : ℤ) % opts.modulo ≠ opts.remainder
        · rw [if_pos hskip]
          exact ⟨fun h => absurd h (by norm_num), hpool⟩
        · rw [if_neg hskip]
          by_cases hstr : ¬ isStronglyConnected g
          · rw [if_pos hstr]
            exact ⟨fun h => absurd h (by norm_num), hpool⟩
          · rw [if_neg hstr]
            by_cases hloc : ∃ i ∈ Finset.range n, ∀ nbr ∈ adj i,
                idx i nbr ∉ getDeletableEdges g n idx
            · rw [if_pos hloc]
              exact ⟨fun h => absurd h (by norm_num), hpool⟩
            · rw [if_neg hloc]
              by_cases hbf : ¬ opts.bruteForceFlag
              · rw [if_pos hbf]
                by_cases hcomp : hasComplementaryOrientation adj n
                    (getDeletableEdges g n idx) idx afuel cfuel
                · rw [if_pos hcomp]
                  refine ⟨fun _ => ?_, hpool⟩
                  obtain ⟨D', hPD, _, hcov⟩ :=
                    hasComplementaryOrientation_proper adj n _ idx afuel cfuel hG hn
                      hcomp
                  exact ⟨g, D', hP, hPD, not_not.mp hstr, hcov⟩
                · rw [if_neg hcomp]
                  exact ⟨fun h => absurd h (by norm_num), hpool⟩
              · rw [if_neg hbf]
                refine ⟨fun h => ?_, ?_⟩
                · rcases getIntermediateFrankNumber_two h with hfull | ⟨A, hApool, hAne, hAU⟩
                  · exact ⟨g, g, hP, hP, not_not.mp hstr,
                      by rw [Finset.union_self]; exact hfull⟩
                  · rcases hpool A hApool with rfl | ⟨D2, hD2P, hD2S, rfl⟩
                    · exact absurd rfl hAne
                    · exact ⟨g, D2, hP, hD2P, not_not.mp hstr, hAU⟩
                · intro B hB
                  rcases getIntermediateFrankNumber_shape B hB with hBp | hBe | hBT
                  · exact hpool B hBp
                  · exact Or.inl hBe
                  · exact Or.inr ⟨g, hP, not_not.mp hstr, hBT⟩
      · rw [if_neg hb2]
        have he2ne : e2 ≠ -1 := by
          intro he
          rcases lt_or_eq_of_le hub with hlt' | heq'
          · exact hb1 ⟨he, hlt'⟩
          · exact hb2 ⟨he, heq'⟩
        obtain ⟨he1nn, hmem, hlt⟩ := he2 he2ne
        have hnoarc1 : e2.toNat ∉ g.adjacencyList e1.toNat := by
          intro hvv
          rcases harc _ _ hvv with h | ⟨h1', h2', h3' | h4'⟩
          · omega
          · omega
          · exact he2ne h4'
        have hnoarc2 : e1.toNat ∉ g.adjacencyList e2.toNat := by
          intro hvv
          rcases harc _ _ hvv with h | ⟨h1', h2', h3' | h4'⟩
          · omega
          · omega
          · exact he2ne h4'
        have hP1 : ProperOrientation adj (addArc g e1.toNat e2.toNat) :=
          properOrientation_addArc hP hmem hirr hnoarc1 hnoarc2
        have hP2 : ProperOrientation adj (addArc g e2.toNat e1.toNat) :=
          properOrientation_addArc hP (hsym _ _ hmem) hirr hnoarc2 hnoarc1
        have hnext : next (adj e1.toNat) e2 ≠ -1 →
            0 ≤ e1 ∧ (next (adj e1.toNat) e2).toNat ∈ adj e1.toNat ∧
              e1 < next (adj e1.toNat) e2 := by
          intro hne
          refine ⟨he1nn, (next_mem hne).1, ?_⟩
          have := (next_mem hne).2
          omega
        have hnn : next (adj e1.toNat) e2 = -1 ∨ e2 < next (adj e1.toNat) e2 := by
          by_cases hnx : next (adj e1.toNat) e2 = -1
          · exact Or.inl hnx
          · exact Or.inr (next_mem hnx).2
        have harc1 : ∀ u v, v ∈ (addArc g e1.toNat e2.toNat).adjacencyList u →
            ((min u v : ℕ) : ℤ) < e1 ∨
              (((min u v : ℕ) : ℤ) = e1 ∧ e1 < ((max u v : ℕ) : ℤ) ∧
                (((max u v : ℕ) : ℤ) < next (adj e1.toNat) e2 ∨
                  next (adj e1.toNat) e2 = -1)) := by
          intro u v hv
          rcases (mem_addArc_iff g e1.toNat e2.toNat u v).mp hv with ⟨hue, hve⟩ | hv'
          · subst hue; subst hve
            refine Or.inr ⟨by omega, by omega, ?_⟩
            rcases hnn with h | h
            · exact Or.inr h
            · exact Or.inl (by omega)
          · rcases harc u v hv' with h | ⟨ha, hb', hc'⟩
            · exact Or.inl h
            · refine Or.inr ⟨ha, hb', ?_⟩
              rcases hc' with hcc | hee
              · rcases hnn with h | h
                · exact Or.inr h
                · exact Or.inl (by omega)
              · exact absurd hee he2ne
        have harc2 : ∀ u v, v ∈ (addArc g e2.toNat e1.toNat).adjacencyList u →
            ((min u v : ℕ) : ℤ) < e1 ∨
              (((min u v : ℕ) : ℤ) = e1 ∧ e1 < ((max u v : ℕ) : ℤ) ∧
                (((max u v : ℕ) : ℤ) < next (adj e1.toNat) e2 ∨
                  next (adj e1.toNat) e2 = -1)) := by
          intro u v hv
          rcases (mem_addArc_iff g e2.toNat e1.toNat u v).mp hv with ⟨hue, hve⟩ | hv'
          · subst hue; subst hve
            refine Or.inr ⟨by omega, by omega, ?_⟩
            rcases hnn with h | h
            · exact Or.inr h
            · exact Or.inl (by omega)
          · rcases harc u v hv' with h | ⟨ha, hb', hc'⟩
            · exact Or.inl h
            · refine Or.inr ⟨ha, hb', ?_⟩
              rcases hc' with hcc | hee
              · rcases hnn with h | h
                · exact Or.inr h
                · exact Or.inl (by omega)
              · exact absurd hee he2ne
        obtain ⟨ih1two, ih1pool⟩ :
            ((if ((addArc g e1.toNat e2.toNat).adjacencyList e1.toNat).card ≠ 3 ∧
                ((addArc g e1.toNat e2.toNat).reverseAdjacencyList e2.toNat).card ≠ 3 then
              generateAllOrientations adj opts n idx afuel cfuel f total pool
                (addArc g e1.toNat e2.toNat) e1 (next (adj e1.toNat) e2)
            else ⟨0, total, pool, []⟩).frankNumber = 2 →
              ∃ D1 D2, ProperOrientation adj D1 ∧ ProperOrientation adj D2 ∧
                isStronglyConnected D1 = true ∧
                getDeletableEdges D1 n idx ∪ getDeletableEdges D2 n idx =
                  fullSet (3 * n / 2)) ∧
            PoolOrient adj n idx
              (if ((addArc g e1.toNat e2.toNat).adjacencyList e1.toNat).card ≠ 3 ∧
                  ((addArc g e1.toNat e2.toNat).reverseAdjacencyList e2.toNat).card ≠ 3 then
                generateAllOrientations adj opts n idx afuel cfuel f total pool
                  (addArc g e1.toNat e2.toNat) e1 (next (adj e1.toNat) e2)
              else ⟨0, total, pool, []⟩).pool := by
          split_ifs with hc
          · exact ihf total pool _ _ _ hpool hP1 hlb hub hnext harc1
          · exact ⟨fun h => absurd h (by norm_num), hpool⟩
        set r1 := if ((addArc g e1.toNat e2.toNat).adjacencyList e1.toNat).card ≠ 3 ∧
            ((addArc g e1.toNat e2.toNat).reverseAdjacencyList e2.toNat).card ≠ 3 then
          generateAllOrientations adj opts n idx afuel cfuel f total pool
            (addArc g e1.toNat e2.toNat) e1 (next (adj e1.toNat) e2)
          else ⟨0, total, pool, []⟩ with hr1def
        by_cases hret : r1.frankNumber ≠ 0
        · rw [if_pos hret]
          exact ⟨ih1two, ih1pool⟩
        · rw [if_neg hret]
          obtain ⟨ih2two, ih2pool⟩ :
              ((if ((addArc g e2.toNat e1.toNat).reverseAdjacencyList e1.toNat).card ≠ 3 ∧
                  ((addArc g e2.toNat e1.toNat).adjacencyList e2.toNat).card ≠ 3 then
                generateAllOrientations adj opts n idx afuel cfuel f
                  r1.totalOrientationsGenerated r1.pool
                  (addArc g e2.toNat e1.toNat) e1 (next (adj e1.toNat) e2)
              else ⟨0, r1.totalOrientationsGenerated, r1.pool, []⟩).frankNumber = 2 →
                ∃ D1 D2, ProperOrientation adj D1 ∧ ProperOrientation adj D2 ∧
                  isStronglyConnected D1 = true ∧
                  getDeletableEdges D1 n idx ∪ getDeletableEdges D2 n idx =
                    fullSet (3 * n / 2)) ∧
              PoolOrient adj n idx
                (if ((addArc g e2.toNat e1.toNat).reverseAdjacencyList e1.toNat).card ≠ 3 ∧
                    ((addArc g e2.toNat e1.toNat).adjacencyList e2.toNat).card ≠ 3 then
                  generateAllOrientations adj opts n idx afuel cfuel f
                    r1.totalOrientationsGenerated r1.pool
                    (addArc g e2.toNat e1.toNat) e1 (next (adj e1.toNat) e2)
                else ⟨0, r1.totalOrientationsGenerated, r1.pool, []⟩).pool := by
            split_ifs with hc
            · exact ihf r1.totalOrientationsGenerated r1.pool _ _ _ ih1pool hP2 hlb hub
                hnext harc2
            · exact ⟨fun h => absurd h (by norm_num), ih1pool⟩
          exact ⟨ih2two, ih2pool⟩

theorem k4_cubic : CubicGraph k4Adj 4 := by
  have hchar : ∀ u, k4Adj u =
      if u = 0 then {1, 2, 3} else if u = 1 then {0, 2, 3}
      else if u = 2 then {0, 1, 3} else if u = 3 then {0, 1, 2} else ∅ :=
    fun u => rfl
  refine ⟨?_, ?_, ?_, ?_⟩
  · intro u v hv
    rw [hchar] at hv
    split_ifs at hv with h0 h1 h2 h3
    · subst h0
      simp only [Finset.mem_insert, Finset.mem_singleton] at hv
      rcases hv with rfl | rfl | rfl <;> decide
    · subst h1
      simp only [Finset.mem_insert, Finset.mem_singleton] at hv
      rcases hv with rfl | rfl | rfl <;> decide
    · subst h2
      simp only [Finset.mem_insert, Finset.mem_singleton] at hv
      rcases hv with rfl | rfl | rfl <;> decide
    · subst h3
      simp only [Finset.mem_insert, Finset.mem_singleton] at hv
      rcases hv with rfl | rfl | rfl <;> decide
    · exact absurd hv (Finset.not_mem_empty v)
  · intro u
    intro hu
    rw [hchar] at hu
    split_ifs at hu with h0 h1 h2 h3
    · subst h0; revert hu; decide
    · subst h1; revert hu; decide
    · subst h2; revert hu; decide
    · subst h3; revert hu; decide
    · exact absurd hu (Finset.not_mem_empty u)
  · intro u v hv
    rw [hchar] at hv
    split_ifs at hv with h0 h1 h2 h3
    · subst h0
      simp only [Finset.mem_insert, Finset.mem_singleton] at hv
      rcases hv with rfl | rfl | rfl <;> decide
    · subst h1
      simp only [Finset.mem_insert, Finset.mem_singleton] at hv
      rcases hv with rfl | rfl | rfl <;> decide
    · subst h2
      simp only [Finset.mem_insert, Finset.mem_singleton] at hv
      rcases hv with rfl | rfl | rfl <;> decide
    · subst h3
      simp only [Finset.mem_insert, Finset.mem_singleton] at hv
      rcases hv with rfl | rfl | rfl <;> decide
    · exact absurd hv (Finset.not_mem_empty v)
  · intro u hu
    interval_cases u <;> decide

/-- C2: whenever the exact procedure (orientation enumeration with the
constraint-propagation solver or with the brute-force pool) returns 2 on a
cubic graph, there are two proper orientations of the graph, the first
strongly connected, whose deletable-edge sets cover all edge numbers below
3N/2. -/
theorem exact_result_two_covers (adj : ℕ → Finset ℕ) (n : ℕ) (opts : Options)
    (afuel cfuel gfuel : ℕ) (hG : CubicGraph adj n) (hn : 1 ≤ n)
    (h : findFrankNumber adj n opts afuel cfuel gfuel = 2) :
    ∃ D1 D2, ProperOrientation adj D1 ∧ ProperOrientation adj D2 ∧
      isStronglyConnected D1 = true ∧
      getDeletableEdges D1 n (numberEdges adj n) ∪
        getDeletableEdges D2 n (numberEdges adj n) = fullSet (3 * n / 2) := by
  unfold findFrankNumber at h
  exact (generateAllOrientations_proper adj opts n (numberEdges adj n) afuel cfuel
    hG hn gfuel 0 [] (emptyGraph n) (-1) (-1)
    (fun A hA => absurd hA (List.not_mem_nil A))
    (properOrientation_empty adj n)
    (by norm_num) (by omega)
    (fun hne => absurd rfl hne)
    (fun u v hv => absurd hv (Finset.not_mem_empty v))).1 h

theorem exact_result_two_covers_witness :
    ∃ D1 D2, ProperOrientation k4Adj D1 ∧ ProperOrientation k4Adj D2 ∧
      isStronglyConnected D1 = true ∧
      getDeletableEdges D1 4 (numberEdges k4Adj 4) ∪
        getDeletableEdges D2 4 (numberEdges k4Adj 4) = fullSet (3 * 4 / 2) :=
  exact_result_two_covers k4Adj 4 optsBruteForce 30 100 100 k4_cubic (by norm_num)
    (by decide)

theorem driverFrankNumber_cases (opts : Options) (heuristicPassed : Bool)
    (adj : ℕ → Finset ℕ) (n afuel cfuel gfuel : ℕ) :
    driverFrankNumber opts heuristicPassed adj n afuel cfuel gfuel = 0 ∨
      driverFrankNumber opts heuristicPassed adj n afuel cfuel gfuel = 2 := by
  unfold driverFrankNumber
  have hff : findFrankNumber adj n opts afuel cfuel gfuel = 0 ∨
      findFrankNumber adj n opts afuel cfuel gfuel = 2 := by
    unfold findFrankNumber
    exact (generateAllOrientations_spec adj opts n (numberEdges adj n) afuel cfuel
      gfuel 0 [] (emptyGraph n) (-1) (-1)
      (fun A hA => absurd hA (List.not_mem_nil A))).2.2
  by_cases hh : opts.oddCyclesHeuristicFlag ∧ heuristicPassed
  · rw [if_pos hh]
    by_cases he : opts.exhaustiveCheckFlag ∧ (2 : ℤ) = 0
    · exact absurd he.2 (by norm_num)
    · rw [if_neg he]; exact Or.inr rfl
  · rw [if_neg hh]
    by_cases he : opts.exhaustiveCheckFlag ∧ (0 : ℤ) = 0
    · rw [if_pos he]; exact hff
    · rw [if_neg he]; exact Or.inl rfl

/-- C3: the per-graph result is 0 or 2, the driver prints the graph exactly
when the result differs from 2 under the default policy and exactly when it
equals 2 under the complement flag, and for a fixed result no graph is
printed under both policies. -/
theorem driver_output_policy (opts : Options) (heuristicPassed : Bool)
    (adj : ℕ → Finset ℕ) (n afuel cfuel gfuel : ℕ) :
    (driverFrankNumber opts heuristicPassed adj n afuel cfuel gfuel = 0 ∨
     driverFrankNumber opts heuristicPassed adj n afuel cfuel gfuel = 2) ∧
    (driverEmitsGraph opts (driverFrankNumber opts heuristicPassed adj n afuel
        cfuel gfuel) =
      (decide (driverFrankNumber opts heuristicPassed adj n afuel cfuel gfuel = 2) ==
        opts.complementFlag)) ∧
    (∀ opts2 : Options, opts2.complementFlag = ! opts.complementFlag →
      ¬ (driverEmitsGraph opts (driverFrankNumber opts heuristicPassed adj n afuel
          cfuel gfuel) = true ∧
         driverEmitsGraph opts2 (driverFrankNumber opts heuristicPassed adj n afuel
          cfuel gfuel) = true)) := by
  have hr := driverFrankNumber_cases opts heuristicPassed adj n afuel cfuel gfuel
  refine ⟨hr, ?_, ?_⟩
  · rcases hr with h0 | h2
    · rw [h0]
      cases hc : opts.complementFlag <;> simp [driverEmitsGraph, hc]
    · rw [h2]
      cases hc : opts.complementFlag <;> simp [driverEmitsGraph, hc]
  · intro opts2 hflag ⟨ha, hb⟩
    rcases hr with h0 | h2
    · rw [h0] at ha hb
      cases hc : opts.complementFlag <;> rw [hc] at hflag <;>
        simp [driverEmitsGraph, hc, hflag] at ha hb
    · rw [h2] at ha hb
      cases hc : opts.complementFlag <;> rw [hc] at hflag <;>
        simp [driverEmitsGraph, hc, hflag] at ha hb

theorem driver_output_policy_witness :
    (driverFrankNumber optsBruteForce false k4Adj 4 30 100 100 = 0 ∨
     driverFrankNumber optsBruteForce false k4Adj 4 30 100 100 = 2) ∧
    driverEmitsGraph optsBruteForce
        (driverFrankNumber optsBruteForce false k4Adj 4 30 100 100) =
      (decide (driverFrankNumber optsBruteForce false k4Adj 4 30 100 100 = 2) ==
        optsBruteForce.complementFlag) := by
  obtain ⟨h1, h2, _⟩ := driver_output_policy optsBruteForce false k4Adj 4 30 100 100
  exact ⟨h1, h2⟩

theorem generateAllOrientations_indices (adj : ℕ → Finset ℕ) (opts : Options)
    (n : ℕ) (idx : ℕ → ℕ → ℕ) (afuel cfuel : ℕ) :
    ∀ (gfuel total : ℕ) (pool : List (Finset ℕ)) (g : DiGraph) (e1 e2 : ℤ),
      ((generateAllOrientations adj opts n idx afuel cfuel gfuel total pool g
          e1 e2).leaves.map Prod.fst =
        List.range' (total + 1)
          (generateAllOrientations adj opts n idx afuel cfuel gfuel total pool g
            e1 e2).leaves.length) ∧
      (generateAllOrientations adj opts n idx afuel cfuel gfuel total pool g
          e1 e2).totalOrientationsGenerated =
        total + (generateAllOrientations adj opts n idx afuel cfuel gfuel
          total pool g e1 e2).leaves.length := by
  intro gfuel
  induction gfuel with
  | zero =>
    intro total pool g e1 e2
    rw [generateAllOrientations]
    simp
  | succ f ihf =>
    intro total pool g e1 e2
    rw [generateAllOrientations]
    by_cases hb1 : e2 = -1 ∧ e1 < (n : ℤ) - 1
    · rw [if_pos hb1]
      exact ihf total pool g _ _
    · rw [if_neg hb1]
      by_cases hb2 : e2 = -1 ∧ e1 = (n : ℤ) - 1
      · rw [if_pos hb2]
        by_cases hskip : opts.singleGraphFlag ∧
            ((total + 1 : ℕ) : ℤ) % opts.modulo ≠ opts.remainder
        · rw [if_pos hskip]
          exact ⟨by simp [List.range'], rfl⟩
        · rw [if_neg hskip]
          by_cases hstr : ¬ isStronglyConnected g
          · rw [if_pos hstr]
            exact ⟨by simp [List.range'], rfl⟩
          · rw [if_neg hstr]
            by_cases hloc : ∃ i ∈ Finset.range n, ∀ nbr ∈ adj i,
                idx i nbr ∉ getDeletableEdges g n idx
            · rw [if_pos hloc]
              exact ⟨by simp [List.range'], rfl⟩
            · rw [if_neg hloc]
              by_cases hbf : ¬ opts.bruteForceFlag
              · rw [if_pos hbf]
                by_cases hcomp : hasComplementaryOrientation adj n
                    (getDeletableEdges g n idx) idx afuel cfuel
                · rw [if_pos hcomp]
                  exact ⟨by simp [List.range'], rfl⟩
                · rw [if_neg hcomp]
                  exact ⟨by simp [List.range'], rfl⟩
              · rw [if_neg hbf]
                exact ⟨by simp [List.range'], rfl⟩
      · rw [if_neg hb2]
        obtain ⟨ih1map, ih1tot⟩ :
            ((if ((addArc g e1.toNat e2.toNat).adjacencyList e1.toNat).card ≠ 3 ∧
                ((addArc g e1.toNat e2.toNat).reverseAdjacencyList e2.toNat).card ≠ 3 then
              generateAllOrientations adj opts n idx afuel cfuel f total pool
                (addArc g e1.toNat e2.toNat) e1 (next (adj e1.toNat) e2)
            else ⟨0, total, pool, []⟩).leaves.map Prod.fst =
              List.range' (total + 1)
                (if ((addArc g e1.toNat e2.toNat).adjacencyList e1.toNat).card ≠ 3 ∧
                    ((addArc g e1.toNat e2.toNat).reverseAdjacencyList e2.toNat).card ≠ 3 then
                  generateAllOrientations adj opts n idx afuel cfuel f total pool
                    (addArc g e1.toNat e2.toNat) e1 (next (adj e1.toNat) e2)
                else ⟨0, total, pool, []⟩).leaves.length) ∧
            (if ((addArc g e1.toNat e2.toNat).adjacencyList e1.toNat).card ≠ 3 ∧
                ((addArc g e1.toNat e2.toNat).reverseAdjacencyList e2.toNat).card ≠ 3 then
              generateAllOrientations adj opts n idx afuel cfuel f total pool
                (addArc g e1.toNat e2.toNat) e1 (next (adj e1.toNat) e2)
            else ⟨0, total, pool, []⟩).totalOrientationsGenerated =
              total + (if ((addArc g e1.toNat e2.toNat).adjacencyList e1.toNat).card ≠ 3 ∧
                  ((addArc g e1.toNat e2.toNat).reverseAdjacencyList e2.toNat).card ≠ 3 then
                generateAllOrientations adj opts n idx afuel cfuel f total pool
                  (addArc g e1.toNat e2.toNat) e1 (next (adj e1.toNat) e2)
              else ⟨0, total, pool, []⟩).leaves.length := by
          split_ifs with hc
          · exact ihf total pool _ _ _
          · exact ⟨by simp, by simp⟩
        set r1 := if ((addArc g e1.toNat e2.toNat).adjacencyList e1.toNat).card ≠ 3 ∧
            ((addArc g e1.toNat e2.toNat).reverseAdjacencyList e2.toNat).card ≠ 3 then
          generateAllOrientations adj opts n idx afuel cfuel f total pool
            (addArc g e1.toNat e2.toNat) e1 (next (adj e1.toNat) e2)
          else ⟨0, total, pool, []⟩ with hr1def
        by_cases hret : r1.frankNumber ≠ 0
        · rw [if_pos hret]
          exact ⟨ih1map, ih1tot⟩
        · rw [if_neg hret]
          obtain ⟨ih2map, ih2tot⟩ :
              ((if ((addArc g e2.toNat e1.toNat).reverseAdjacencyList e1.toNat).card ≠ 3 ∧
                  ((addArc g e2.toNat e1.toNat).adjacencyList e2.toNat).card ≠ 3 then
                generateAllOrientations adj opts n idx afuel cfuel f
                  r1.totalOrientationsGenerated r1.pool
                  (addArc g e2.toNat e1.toNat) e1 (next (adj e1.toNat) e2)
              else ⟨0, r1.totalOrientationsGenerated, r1.pool, []⟩).leaves.map Prod.fst =
                List.range' (r1.totalOrientationsGenerated + 1)
                  (if ((addArc g e2.toNat e1.toNat).reverseAdjacencyList e1.toNat).card ≠ 3 ∧
                      ((addArc g e2.toNat e1.toNat).adjacencyList e2.toNat).card ≠ 3 then
                    generateAllOrientations adj opts n idx afuel cfuel f
                      r1.totalOrientationsGenerated r1.pool
                      (addArc g e2.toNat e1.toNat) e1 (next (adj e1.toNat) e2)
                  else ⟨0, r1.totalOrientationsGenerated, r1.pool, []⟩).leaves.length) ∧
              (if ((addArc g e2.toNat e1.toNat).reverseAdjacencyList e1.toNat).card ≠ 3 ∧
                  ((addArc g e2.toNat e1.toNat).adjacencyList e2.toNat).card ≠ 3 then
                generateAllOrientations adj opts n idx afuel cfuel f
                  r1.totalOrientationsGenerated r1.pool
                  (addArc g e2.toNat e1.toNat) e1 (next (adj e1.toNat) e2)
              else ⟨0, r1.totalOrientationsGenerated, r1.pool, []⟩).totalOrientationsGenerated =
                r1.totalOrientationsGenerated +
                (if ((addArc g e2.toNat e1.toNat).reverseAdjacencyList e1.toNat).card ≠ 3 ∧
                    ((addArc g e2.toNat e1.toNat).adjacencyList e2.toNat).card ≠ 3 then
                  generateAllOrientations adj opts n idx afuel cfuel f
                    r1.totalOrientationsGenerated r1.pool
                    (addArc g e2.toNat e1.toNat) e1 (next (adj e1.toNat) e2)
                else ⟨0, r1.totalOrientationsGenerated, r1.pool, []⟩).leaves.length := by
            split_ifs with hc
            · exact ihf r1.totalOrientationsGenerated r1.pool _ _ _
            · exact ⟨by simp, by simp⟩
          set r2 := if ((addArc g e2.toNat e1.toNat).reverseAdjacencyList e1.toNat).card ≠ 3 ∧
              ((addArc g e2.toNat e1.toNat).adjacencyList e2.toNat).card ≠ 3 then
            generateAllOrientations adj opts n idx afuel cfuel f
              r1.totalOrientationsGenerated r1.pool
              (addArc g e2.toNat e1.toNat) e1 (next (adj e1.toNat) e2)
            else ⟨0, r1.totalOrientationsGenerated, r1.pool, []⟩ with hr2def
          constructor
          · show (r1.leaves ++ r2.leaves).map Prod.fst =
              List.range' (total + 1) (r1.leaves ++ r2.leaves).length
            rw [List.map_append, ih1map, ih2map, ih1tot, List.length_append]
            have harr : total + r1.leaves.length + 1 =
                (total + 1) + 1 * r1.leaves.length := by ring
            rw [harr, List.range'_append]
            rw [Nat.add_comm r2.leaves.length r1.leaves.length]
          · show r2.totalOrientationsGenerated =
              total + (r1.leaves ++ r2.leaves).length
            rw [ih2tot, ih1tot, List.length_append]
            ring

theorem pool_pairwise_incomparable_witness :
    (([{0}, {1}] : List (Finset ℕ)).Pairwise PoolIncomp ∧
      (getIntermediateFrankNumber 4 [{0}, {1}] {2}).1 = 0) ∧
    (getIntermediateFrankNumber 4 [{0}, {1}] {2}).2.Pairwise PoolIncomp := by
  have hp : ([{0}, {1}] : List (Finset ℕ)).Pairwise PoolIncomp := by decide
  have hz : (getIntermediateFrankNumber 4 [{0}, {1}] {2}).1 = 0 := by decide
  exact ⟨⟨hp, hz⟩, pool_pairwise_incomparable.2 4 [{0}, {1}] {2} hp hz⟩

/-- The driver accepts the graph6 line of the three-vertex path (bytes of
B w newline) although the decoded graph is not cubic: vertex 0 has degree 2. -/
theorem noncubic_graph_accepted :
    driverAccepts [66, 119, 10] = true ∧
    (loadGraph [66, 119, 10] (getNumberOfVertices [66, 119, 10]).toNat).map
      (fun adj => (adj 0).card) = some 2 := by
  exact ⟨by decide, by decide⟩

/-- C4: the acceptance test of main contains no cubicity check.  What it
guarantees for an accepted line is only that getNumberOfVertices succeeds,
the vertex count fits the build-time bound, the edge-count bound fits, and
loadGraph succeeds. -/
theorem driver_acceptance_checks (s : List ℕ) (h : driverAccepts s = true) :
    getNumberOfVertices s ≠ -1 ∧
    getNumberOfVertices s ≤ (MAXVERTICES : ℤ) ∧
    getNumberOfVertices s * 3 / 2 ≤ (MAXVERTICES : ℤ) ∧
    (loadGraph s (getNumberOfVertices s).toNat).isSome = true := by
  have hdef : driverAccepts s =
      (if getNumberOfVertices s = -1 ∨ (MAXVERTICES : ℤ) < getNumberOfVertices s then
        false
      else if (MAXVERTICES : ℤ) < getNumberOfVertices s * 3 / 2 then false
      else
        match loadGraph s (getNumberOfVertices s).toNat with
        | none => false
        | some _ => true) := rfl
  rw [hdef] at h
  by_cases h1 : getNumberOfVertices s = -1 ∨ (MAXVERTICES : ℤ) < getNumberOfVertices s
  · rw [if_pos h1] at h
    exact absurd h (by simp)
  · rw [if_neg h1] at h
    push_neg at h1
    by_cases h2 : (MAXVERTICES : ℤ) < getNumberOfVertices s * 3 / 2
    · rw [if_pos h2] at h
      exact absurd h (by simp)
    · rw [if_neg h2] at h
      rcases hl : loadGraph s (getNumberOfVertices s).toNat with _ | adj
      · rw [hl] at h
        exact absurd h (by simp)
      · exact ⟨h1.1, h1.2, not_lt.mp h2, rfl⟩

theorem driver_acceptance_checks_witness :
    getNumberOfVertices [67, 126, 10] ≠ -1 ∧
    getNumberOfVertices [67, 126, 10] ≤ (MAXVERTICES : ℤ) ∧
    getNumberOfVertices [67, 126, 10] * 3 / 2 ≤ (MAXVERTICES : ℤ) ∧
    (loadGraph [67, 126, 10] (getNumberOfVertices [67, 126, 10]).toNat).isSome = true :=
  driver_acceptance_checks [67, 126, 10] (by decide)

/-- In the enumeration on K4, whose first edge joins vertices 0 and 1, some
candidate orients that edge from 0 to 1 and some candidate orients it from 1
to 0: generateAllOrientations explores both directions of the first edge. -/
theorem both_first_edge_directions_generated :
    (k4Enum.leaves.any fun p => decide (1 ∈ p.2.adjacencyList 0)) = true ∧
    (k4Enum.leaves.any fun p => decide (0 ∈ p.2.adjacencyList 1)) = true := by
  exact ⟨by decide, by decide⟩

theorem generateAllOrientations_leaves_extend (adj : ℕ → Finset ℕ) (opts : Options)
    (n : ℕ) (idx : ℕ → ℕ → ℕ) (afuel cfuel : ℕ) :
    ∀ (gfuel total : ℕ) (pool : List (Finset ℕ)) (g : DiGraph) (e1 e2 : ℤ),
      ∀ p ∈ (generateAllOrientations adj opts n idx afuel cfuel gfuel total pool g
        e1 e2).leaves, SubOrientation g p.2 := by
  intro gfuel
  induction gfuel with
  | zero =>
    intro total pool g e1 e2 p hp
    rw [generateAllOrientations] at hp
    simp at hp
  | succ f ihf =>
    intro total pool g e1 e2 p hp
    rw [generateAllOrientations] at hp
    by_cases hb1 : e2 = -1 ∧ e1 < (n : ℤ) - 1
    · rw [if_pos hb1] at hp
      exact ihf _ _ _ _ _ p hp
    · rw [if_neg hb1] at hp
      by_cases hb2 : e2 = -1 ∧ e1 = (n : ℤ) - 1
      · rw [if_pos hb2] at hp
        by_cases hskip : opts.singleGraphFlag ∧
            ((total + 1 : ℕ) : ℤ) % opts.modulo ≠ opts.remainder
        · rw [if_pos hskip] at hp
          rcases List.mem_singleton.mp hp with rfl
          exact subOrientation_refl g
        · rw [if_neg hskip] at hp
          by_cases hstr : ¬ isStronglyConnected g
          · rw [if_pos hstr] at hp
            rcases List.mem_singleton.mp hp with rfl
            exact subOrientation_refl g
          · rw [if_neg hstr] at hp
            by_cases hloc : ∃ i ∈ Finset.range n, ∀ nbr ∈ adj i,
                idx i nbr ∉ getDeletableEdges g n idx
            · rw [if_pos hloc] at hp
              rcases List.mem_singleton.mp hp with rfl
              exact subOrientation_refl g
            · rw [if_neg hloc] at hp
              by_cases hbf : ¬ opts.bruteForceFlag
              · rw [if_pos hbf] at hp
                by_cases hcomp : hasComplementaryOrientation adj n
                    (getDeletableEdges g n idx) idx afuel cfuel
                · rw [if_pos hcomp] at hp
                  rcases List.mem_singleton.mp hp with rfl
                  exact subOrientation_refl g
                · rw [if_neg hcomp] at hp
                  rcases List.mem_singleton.mp hp with rfl
                  exact subOrientation_refl g
              · rw [if_neg hbf] at hp
                rcases List.mem_singleton.mp hp with rfl
                exact subOrientation_refl g
      · rw [if_neg hb2] at hp
        have h1 : ∀ q ∈ (if ((addArc g e1.toNat e2.toNat).adjacencyList e1.toNat).card ≠ 3 ∧
            ((addArc g e1.toNat e2.toNat).reverseAdjacencyList e2.toNat).card ≠ 3 then
          generateAllOrientations adj opts n idx afuel cfuel f total pool
            (addArc g e1.toNat e2.toNat) e1 (next (adj e1.toNat) e2)
          else ⟨0, total, pool, []⟩).leaves, SubOrientation g q.2 := by
          split_ifs with hc
          · intro q hq
            exact subOrientation_trans (subOrientation_addArc g e1.toNat e2.toNat)
              (ihf _ _ _ _ _ q hq)
          · intro q hq
            simp at hq
        set r1 := if ((addArc g e1.toNat e2.toNat).adjacencyList e1.toNat).card ≠ 3 ∧
            ((addArc g e1.toNat e2.toNat).reverseAdjacencyList e2.toNat).card ≠ 3 then
          generateAllOrientations adj opts n idx afuel cfuel f total pool
            (addArc g e1.toNat e2.toNat) e1 (next (adj e1.toNat) e2)
          else ⟨0, total, pool, []⟩ with hr1def
        by_cases hret : r1.frankNumber ≠ 0
        · rw [if_pos hret] at hp
          exact h1 p hp
        · rw [if_neg hret] at hp
          have h2 : ∀ q ∈ (if ((addArc g e2.toNat e1.toNat).reverseAdjacencyList
              e1.toNat).card ≠ 3 ∧
              ((addArc g e2.toNat e1.toNat).adjacencyList e2.toNat).card ≠ 3 then
            generateAllOrientations adj opts n idx afuel cfuel f
              r1.totalOrientationsGenerated r1.pool
              (addArc g e2.toNat e1.toNat) e1 (next (adj e1.toNat) e2)
            else ⟨0, r1.totalOrientationsGenerated, r1.pool, []⟩).leaves,
              SubOrientation g q.2 := by
            split_ifs with hc
            · intro q hq
              exact subOrientation_trans (subOrientation_addArc g e2.toNat e1.toNat)
                (ihf _ _ _ _ _ q hq)
            · intro q hq
              simp at hq
          rcases List.mem_append.mp hp with hp1 | hp2
          · exact h1 p hp1
          · exact h2 p hp2

/-- C5: generateAllOrientations explores both directions of every edge it
reaches, the first edge included: at every edge-orienting node the trace of
candidates is the concatenation of the two subtrees, whose candidates carry
the two opposite arcs of that edge.  The direction of the first edge is fixed
only inside the complementary-orientation search, whose success always
provides a proper complementary orientation of the graph containing the arc
from vertex 0 to its smallest neighbour. -/
theorem edge_direction_exploration (adj : ℕ → Finset ℕ) (n : ℕ) (S : Finset ℕ)
    (idx : ℕ → ℕ → ℕ) (afuel cfuel : ℕ)
    (hG : CubicGraph adj n) (hn : 1 ≤ n)
    (hcomp : hasComplementaryOrientation adj n S idx afuel cfuel = true) :
    (∃ D', ProperOrientation adj D' ∧
      (next (adj 0) (-1)).toNat ∈ D'.adjacencyList 0 ∧
      S ∪ getDeletableEdges D' n idx = fullSet (3 * n / 2)) ∧
    ∀ (opts : Options) (gfuel total : ℕ) (pool : List (Finset ℕ)) (g : DiGraph)
      (e1 e2 : ℤ),
      ¬(e2 = -1 ∧ e1 < (n : ℤ) - 1) → ¬(e2 = -1 ∧ e1 = (n : ℤ) - 1) →
      ((addArc g e1.toNat e2.toNat).adjacencyList e1.toNat).card ≠ 3 ∧
        ((addArc g e1.toNat e2.toNat).reverseAdjacencyList e2.toNat).card ≠ 3 →
      ((addArc g e2.toNat e1.toNat).reverseAdjacencyList e1.toNat).card ≠ 3 ∧
        ((addArc g e2.toNat e1.toNat).adjacencyList e2.toNat).card ≠ 3 →
      (generateAllOrientations adj opts n idx afuel cfuel gfuel total pool
        (addArc g e1.toNat e2.toNat) e1 (next (adj e1.toNat) e2)).frankNumber = 0 →
      ((generateAllOrientations adj opts n idx afuel cfuel (gfuel + 1) total pool g
          e1 e2).leaves =
        (generateAllOrientations adj opts n idx afuel cfuel gfuel total pool
          (addArc g e1.toNat e2.toNat) e1 (next (adj e1.toNat) e2)).leaves ++
        (generateAllOrientations adj opts n idx afuel cfuel gfuel
          (generateAllOrientations adj opts n idx afuel cfuel gfuel total pool
            (addArc g e1.toNat e2.toNat) e1
            (next (adj e1.toNat) e2)).totalOrientationsGenerated
          (generateAllOrientations adj opts n idx afuel cfuel gfuel total pool
            (addArc g e1.toNat e2.toNat) e1 (next (adj e1.toNat) e2)).pool
          (addArc g e2.toNat e1.toNat) e1 (next (adj e1.toNat) e2)).leaves) ∧
      (∀ p ∈ (generateAllOrientations adj opts n idx afuel cfuel gfuel total pool
          (addArc g e1.toNat e2.toNat) e1 (next (adj e1.toNat) e2)).leaves,
        e2.toNat ∈ p.2.adjacencyList e1.toNat) ∧
      (∀ p ∈ (generateAllOrientations adj opts n idx afuel cfuel gfuel
          (generateAllOrientations adj opts n idx afuel cfuel gfuel total pool
            (addArc g e1.toNat e2.toNat) e1
            (next (adj e1.toNat) e2)).totalOrientationsGenerated
          (generateAllOrientations adj opts n idx afuel cfuel gfuel total pool
            (addArc g e1.toNat e2.toNat) e1 (next (adj e1.toNat) e2)).pool
          (addArc g e2.toNat e1.toNat) e1 (next (adj e1.toNat) e2)).leaves,
        e1.toNat ∈ p.2.adjacencyList e2.toNat) := by
  constructor
  · exact hasComplementaryOrientation_proper adj n S idx afuel cfuel hG hn hcomp
  · intro opts gfuel total pool g e1 e2 hb1 hb2 hc1 hc2 hr0
    refine ⟨?_, ?_, ?_⟩
    · rw [generateAllOrientations]
      rw [if_neg hb1, if_neg hb2]
      dsimp only
      rw [if_pos hc1,
        if_neg (show ¬ (generateAllOrientations adj opts n idx afuel cfuel gfuel total
          pool (addArc g e1.toNat e2.toNat) e1
          (next (adj e1.toNat) e2)).frankNumber ≠ 0 from fun hne => hne hr0),
        if_pos hc2]
    · intro p hp
      exact generateAllOrientations_leaves_extend adj opts n idx afuel cfuel gfuel
        total pool (addArc g e1.toNat e2.toNat) e1 (next (adj e1.toNat) e2) p hp
        e1.toNat e2.toNat (mem_addArc_self g e1.toNat e2.toNat)
    · intro p hp
      exact generateAllOrientations_leaves_extend adj opts n idx afuel cfuel gfuel
        _ _ (addArc g e2.toNat e1.toNat) e1 (next (adj e1.toNat) e2) p hp
        e2.toNat e1.toNat (mem_addArc_self g e2.toNat e1.toNat)

theorem edge_direction_exploration_witness :
    (∃ D', ProperOrientation k4Adj D' ∧
      (next (k4Adj 0) (-1)).toNat ∈ D'.adjacencyList 0 ∧
      ({1, 3, 4} : Finset ℕ) ∪ getDeletableEdges D' 4 (numberEdges k4Adj 4) =
        fullSet (3 * 4 / 2)) ∧
    ((generateAllOrientations k4Adj optsNoProcess 4 (numberEdges k4Adj 4) 30 100 100
        0 [] (emptyGraph 4) 0 1).leaves =
      (generateAllOrientations k4Adj optsNoProcess 4 (numberEdges k4Adj 4) 30 100 99
        0 [] (addArc (emptyGraph 4) 0 1) 0 (next (k4Adj 0) 1)).leaves ++
      (generateAllOrientations k4Adj optsNoProcess 4 (numberEdges k4Adj 4) 30 100 99
        (generateAllOrientations k4Adj optsNoProcess 4 (numberEdges k4Adj 4) 30 100 99
          0 [] (addArc (emptyGraph 4) 0 1) 0 (next (k4Adj 0) 1)).totalOrientationsGenerated
        (generateAllOrientations k4Adj optsNoProcess 4 (numberEdges k4Adj 4) 30 100 99
          0 [] (addArc (emptyGraph 4) 0 1) 0 (next (k4Adj 0) 1)).pool
        (addArc (emptyGraph 4) 1 0) 0 (next (k4Adj 0) 1)).leaves) ∧
    (∀ p ∈ (generateAllOrientations k4Adj optsNoProcess 4 (numberEdges k4Adj 4) 30 100
        99 0 [] (addArc (emptyGraph 4) 0 1) 0 (next (k4Adj 0) 1)).leaves,
      1 ∈ p.2.adjacencyList 0) := by
  have h := edge_direction_exploration k4Adj 4 {1, 3, 4} (numberEdges k4Adj 4) 30 100
    k4_cubic (by norm_num) (by decide)
  have h2 := h.2 optsNoProcess 99 0 [] (emptyGraph 4) 0 1 (by decide) (by decide)
    (by decide) (by decide) (by decide)
  exact ⟨h.1, h2.1, h2.2.1⟩

/-- In the enumeration on the 3-prism, some complete orientation that is not
strongly connected still appears in the trace of indexed candidates. -/
theorem nonstrong_candidate_receives_index :
    (prismEnum.leaves.any fun p => !isStronglyConnected p.2) = true := by
  decide

/-- C6: every complete orientation, strongly connected or not, receives the
next consecutive global index, and under sharding a candidate whose index
misses the residue class is skipped (recorded with result 0 and an unchanged
pool) before the strong-connectivity test and any further processing. -/
theorem candidate_indexing_and_sharding (adj : ℕ → Finset ℕ) (opts : Options)
    (n : ℕ) (idx : ℕ → ℕ → ℕ) (afuel cfuel fuel total : ℕ)
    (pool : List (Finset ℕ)) (g : DiGraph) (e1 : ℤ)
    (hb : e1 = (n : ℤ) - 1)
    (hskip : opts.singleGraphFlag ∧
      ((total + 1 : ℕ) : ℤ) % opts.modulo ≠ opts.remainder) :
    generateAllOrientations adj opts n idx afuel cfuel (fuel + 1) total pool g e1
        (-1) = ⟨0, total + 1, pool, [(total + 1, g)]⟩ ∧
    ∀ (gfuel total2 : ℕ) (pool2 : List (Finset ℕ)) (g2 : DiGraph) (e1' e2' : ℤ),
      (generateAllOrientations adj opts n idx afuel cfuel gfuel total2 pool2 g2
        e1' e2').leaves.map Prod.fst =
      List.range' (total2 + 1)
        (generateAllOrientations adj opts n idx afuel cfuel gfuel total2 pool2 g2
          e1' e2').leaves.length := by
  constructor
  · rw [generateAllOrientations]
    have h1 : ¬((-1 : ℤ) = -1 ∧ e1 < (n : ℤ) - 1) := by
      rw [hb]; simp
    rw [if_neg h1, if_pos ⟨rfl, hb⟩, if_pos hskip]
  · intro gfuel total2 pool2 g2 e1' e2'
    exact (generateAllOrientations_indices adj opts n idx afuel cfuel gfuel total2
      pool2 g2 e1' e2').1

theorem candidate_indexing_and_sharding_witness :
    generateAllOrientations k4Adj optsNoProcess 4 (numberEdges k4Adj 4) 30 100 1 0
        [] (emptyGraph 4) 3 (-1) = ⟨0, 1, [], [(1, emptyGraph 4)]⟩ ∧
    k4Enum.leaves.map Prod.fst = List.range' 1 k4Enum.leaves.length := by
  have h := candidate_indexing_and_sharding k4Adj optsNoProcess 4
    (numberEdges k4Adj 4) 30 100 0 0 [] (emptyGraph 4) 3 (by decide) (by decide)
  exact ⟨h.1, h.2 100 0 [] (emptyGraph 4) (-1) (-1)⟩

/-- After a full failing run of the matching enumeration on K3,3 the matching
array still holds the last partner tried for vertex 0, although it started
all unset: the C code never clears F on backtrack. -/
theorem matching_entries_not_unset :
    (hasSufficientCondition k33Adj falseLeafCheck 10 (fullSet 6) unsetF).1 = false ∧
    (hasSufficientCondition k33Adj falseLeafCheck 10 (fullSet 6) unsetF).2 0 = 5 ∧
    unsetF 0 = -1 := by
  exact ⟨by decide, by decide, by decide⟩

/-- C7: the enumeration never unsets F on backtrack, so entries of vertices
inside the remaining set can survive failed attempts; what does hold is the
frame property that an entry outside the remaining vertex set is never
written. -/
theorem matching_array_frame (adj : ℕ → Finset ℕ) (lc : (ℕ → ℤ) → Bool) :
    ∀ (fuel : ℕ) (rem : Finset ℕ) (F : ℕ → ℤ) (u : ℕ), u ∉ rem →
      (hasSufficientCondition adj lc fuel rem F).2 u = F u := by
  intro fuel
  induction fuel with
  | zero => intro rem F u _; rfl
  | succ f ih =>
    intro rem F u hu
    rw [hasSufficientCondition]
    by_cases hnv : next rem (-1) = -1
    · rw [if_pos hnv]
    · rw [if_neg hnv]
      refine List.foldlRecOn
        (motive := fun st : Bool × (ℕ → ℤ) => st.2 u = F u) _ _ _ rfl ?_
      intro st hst w hw
      by_cases h1 : st.1 = true
      · rw [if_pos h1]; exact hst
      · rw [if_neg h1]
        have hurem : u ∉ rem \ {(next rem (-1)).toNat, w} :=
          fun hmem => hu (Finset.mem_sdiff.mp hmem).1
        rw [ih _ _ u hurem]
        have huw : u ≠ w := by
          intro he
          exact hu (he ▸ (Finset.mem_inter.mp (mem_sortedList.mp hw)).2)
        have hunv : u ≠ (next rem (-1)).toNat := by
          intro he
          exact hu (he ▸ (next_mem hnv).1)
        simp only [if_neg huw, if_neg hunv]
        exact hst

theorem matching_array_frame_witness :
    7 ∉ fullSet 6 ∧
    (hasSufficientCondition k33Adj falseLeafCheck 10 (fullSet 6) unsetF).2 7 =
      unsetF 7 :=
  ⟨by decide,
   matching_array_frame k33Adj falseLeafCheck 10 (fullSet 6) unsetF 7 (by decide)⟩

/-- A leaf of the complementary-orientation enumeration reached with an arc
count differing from 3N/2 does not abort: the call returns normally, here
even with a positive coverage verdict next to the raised diagnostic flag. -/
theorem arc_count_mismatch_no_abort :
    canCompleteCompOrientation k4Adj 4 (fullSet 6) (numberEdges k4Adj 4) 30 1
        (emptyGraph 4) 3 (-1) = (true, true) ∧
    (emptyGraph 4).numberOfArcs ≠ 3 * (4 : ℤ) / 2 := by
  exact ⟨by decide, by decide⟩

/-- C8: the double-check of the heuristic aborts exactly when an orientation
fails strong connectivity or the pair fails to cover all edges, while the
arc-count check at a leaf of the complementary-orientation enumeration only
sets a diagnostic flag: the leaf still returns its coverage verdict. -/
theorem invariant_violation_handling (adj : ℕ → Finset ℕ) (n : ℕ) (S : Finset ℕ)
    (idx : ℕ → ℕ → ℕ) (afuel fuel : ℕ) (g : DiGraph) (e1 : ℤ)
    (hb : e1 = (n : ℤ) - 1) :
    (∀ o1 o2, verifyOddnessCheckPhase adj n o1 o2 = Except.error () ↔
      (¬ isStronglyConnected o1 = true ∨ ¬ isStronglyConnected o2 = true ∨
        getDeletableEdges o1 n (numberEdges adj n) ∪
          getDeletableEdges o2 n (numberEdges adj n) ≠ fullSet (3 * n / 2))) ∧
    canCompleteCompOrientation adj n S idx afuel (fuel + 1) g e1 (-1) =
      (decide (S ∪ getDeletableEdges g n idx = fullSet (3 * n / 2)),
        decide (g.numberOfArcs ≠ 3 * (n : ℤ) / 2)) := by
  constructor
  · intro o1 o2
    have hdef : verifyOddnessCheckPhase adj n o1 o2 =
        (if ¬ isStronglyConnected o1 ∨ ¬ isStronglyConnected o2 then Except.error ()
        else if getDeletableEdges o1 n (numberEdges adj n) ∪
            getDeletableEdges o2 n (numberEdges adj n) = fullSet (3 * n / 2) then
          Except.ok ()
        else Except.error ()) := rfl
    rw [hdef]
    by_cases h1 : ¬ isStronglyConnected o1 = true ∨ ¬ isStronglyConnected o2 = true
    · rw [if_pos h1]
      exact iff_of_true rfl (h1.elim Or.inl fun h => Or.inr (Or.inl h))
    · rw [if_neg h1]
      push_neg at h1
      by_cases h2 : getDeletableEdges o1 n (numberEdges adj n) ∪
          getDeletableEdges o2 n (numberEdges adj n) = fullSet (3 * n / 2)
      · rw [if_pos h2]
        constructor
        · intro he
          exact Except.noConfusion he
        · intro hr
          rcases hr with h | h | h
          · exact absurd h1.1 h
          · exact absurd h1.2 h
          · exact absurd h2 h
      · rw [if_neg h2]
        exact iff_of_true rfl (Or.inr (Or.inr h2))
  · rw [canCompleteCompOrientation]
    have h1 : ¬((-1 : ℤ) = -1 ∧ e1 < (n : ℤ) - 1) := by
      rw [hb]; simp
    rw [if_neg h1, if_pos ⟨rfl, hb⟩]

theorem invariant_violation_handling_witness :
    canCompleteCompOrientation prismAdj 6 ∅ (numberEdges prismAdj 6) 30 1
        (emptyGraph 6) 5 (-1) =
      (decide ((∅ : Finset ℕ) ∪
          getDeletableEdges (emptyGraph 6) 6 (numberEdges prismAdj 6) =
            fullSet (3 * 6 / 2)),
        decide ((emptyGraph 6).numberOfArcs ≠ 3 * (6 : ℤ) / 2)) ∧
    verifyOddnessCheckPhase prismAdj 6 (emptyGraph 6) (emptyGraph 6) =
      Except.error () := by
  have h := invariant_violation_handling prismAdj 6 ∅ (numberEdges prismAdj 6) 30 0
    (emptyGraph 6) 5 (by decide)
  refine ⟨h.2, ?_⟩
  exact (h.1 (emptyGraph 6) (emptyGraph 6)).mpr (Or.inl (by decide))

theorem deletable_set_symmetry_witness :
    getDeletableEdges cycle3D 3 (fun u v => u + v) =
      getDeletableEdges (reverseDiGraph cycle3D) 3 (fun u v => u + v) := by
  have hadj : ∀ u, cycle3D.adjacencyList u =
      if u = 0 then {1} else if u = 1 then {2} else if u = 2 then {0} else ∅ :=
    fun u => rfl
  have hradj : ∀ v, cycle3D.reverseAdjacencyList v =
      if v = 0 then {2} else if v = 1 then {0} else if v = 2 then {1} else ∅ :=
    fun v => rfl
  have hwf : ∀ u v, v ∈ cycle3D.adjacencyList u ↔
      u ∈ cycle3D.reverseAdjacencyList v := by
    intro u v
    constructor
    · intro hv
      rw [hadj] at hv
      split_ifs at hv with h0 hh1 hh2
      · subst h0; rw [Finset.mem_singleton] at hv; subst hv; decide
      · subst hh1; rw [Finset.mem_singleton] at hv; subst hv; decide
      · subst hh2; rw [Finset.mem_singleton] at hv; subst hv; decide
      · exact absurd hv (Finset.not_mem_empty v)
    · intro hu
      rw [hradj] at hu
      split_ifs at hu with h0 hh1 hh2
      · subst h0; rw [Finset.mem_singleton] at hu; subst hu; decide
      · subst hh1; rw [Finset.mem_singleton] at hu; subst hu; decide
      · subst hh2; rw [Finset.mem_singleton] at hu; subst hu; decide
      · exact absurd hu (Finset.not_mem_empty u)
  have hbound : ∀ u v, v ∈ cycle3D.adjacencyList u → u < 3 ∧ v < 3 := by
    intro u v hv
    rw [hadj] at hv
    split_ifs at hv with h0 hh1 hh2
    · subst h0; rw [Finset.mem_singleton] at hv; subst hv; exact ⟨by norm_num, by norm_num⟩
    · subst hh1; rw [Finset.mem_singleton] at hv; subst hv; exact ⟨by norm_num, by norm_num⟩
    · subst hh2; rw [Finset.mem_singleton] at hv; subst hv; exact ⟨by norm_num, by norm_num⟩
    · exact absurd hv (Finset.not_mem_empty v)
  exact deletable_set_symmetry cycle3D 3 (fun u v => u + v) hwf hbound
    (fun u v => Nat.add_comm u v) (by decide)

end FrankNumber
